import Mathlib

/-!
Verification of the aves kernel core: the physical page allocator
(src/memory/page.rs), the process table and cooperative scheduler
(src/process/mod.rs), and the spinlock (src/sync.rs), shallowly embedded
as pure Lean functions over explicit state.
-/

namespace Aves

/-! ## Page allocator embedding (src/memory/page.rs)

The metadata array is a list of flag records, one per physical page of the
heap region.  `PAGE_SIZE = 4096`; `size_of::<PageMetadata>() = 1`.  The
flag byte of the source holds three independent bits (TAKEN, FIRST,
METADATA), modelled as a structure of three booleans; EMPTY is all-false.
-/

def PAGE_SIZE : Nat := 4096

/-- Metadata flags for a single page: TAKEN, FIRST, METADATA bits. -/
structure PageFlags where
  taken : Bool
  first : Bool
  metadata : Bool
deriving DecidableEq, Repr

/-- Flag byte EMPTY = 0. -/
def PageFlags.empty : PageFlags := ⟨false, false, false⟩

/-- Flag byte TAKEN, written to the tail pages of an allocated run. -/
def PageFlags.takenOnly : PageFlags := ⟨true, false, false⟩

/-- Flag byte TAKEN | FIRST, written to the head page of an allocated run. -/
def PageFlags.takenFirst : PageFlags := ⟨true, true, false⟩

/-- Flag byte TAKEN | METADATA, written to the reserved pages at init. -/
def PageFlags.takenMetadata : PageFlags := ⟨true, false, true⟩

/-- PageMetadata::is_taken. -/
def PageFlags.is_taken (p : PageFlags) : Bool := p.taken

/-- PageMetadata::is_taken_and_first. -/
def PageFlags.is_taken_and_first (p : PageFlags) : Bool := p.taken && p.first

/-- PageMetadata::is_taken_and_not_first. -/
def PageFlags.is_taken_and_not_first (p : PageFlags) : Bool := p.taken && !p.first

/-- State of the page system: the metadata array (`get_pages()`, one entry
per page of the heap region) and the PAGE_START static (index of the first
allocable page). -/
structure PageState where
  pages : List PageFlags
  pageStart : Nat
deriving DecidableEq, Repr

/-- Embedding of `init()`: `pages.len() = LD_HEAP_SIZE / PAGE_SIZE` is the
parameter `len`; PAGE_START = ceil(len * size_of::<PageMetadata>() / PAGE_SIZE)
with size 1; the first PAGE_START pages get TAKEN|METADATA, the rest EMPTY. -/
def pageInit (len : Nat) : PageState :=
  let pageStart := (len * 1 + PAGE_SIZE - 1) / PAGE_SIZE
  { pages := (List.range len).map
      (fun i => if i < pageStart then PageFlags.takenMetadata else PageFlags.empty),
    pageStart := pageStart }

/-- Flag lookup helper: the TAKEN bit of page `j`, out-of-range reads as
taken (an out-of-range page can never be part of a free run). -/
def getTaken (pages : List PageFlags) (j : Nat) : Bool :=
  ((pages.get? j).map PageFlags.taken).getD true

/-- Embedding of the scan loop of `alloc`: iterates the metadata entries of
`l` whose absolute indices start at `i`, threading the `first_page` and
`pages_needed` locals exactly as the source does, and returns the
`first_page` value at the `found` break (None when the loop ends). -/
def allocLoop (count : Nat) : List PageFlags → Nat → Nat → Nat → Option Nat
  | [], _, _, _ => none
  | pg :: rest, i, firstPage, pagesNeeded =>
    if !pg.is_taken then
      let fp := if pagesNeeded = 0 then i else firstPage
      let pn := if pagesNeeded = 0 then count - 1 else pagesNeeded - 1
      if pn = 0 then some fp
      else allocLoop count rest (i + 1) fp pn
    else
      allocLoop count rest (i + 1) firstPage 0

/-- Pointwise indexed rewrite of a list, used to model the flag writes of
`alloc` on the metadata slice. -/
def mapIdxFrom (g : Nat → PageFlags → PageFlags) : Nat → List PageFlags → List PageFlags
  | _, [] => []
  | i, pg :: rest => g i pg :: mapIdxFrom g (i + 1) rest

/-- Flag writes performed by `alloc` once a run is found: page `f` gets
TAKEN|FIRST and pages `f+1 .. f+count-1` get TAKEN. -/
def markRun (pages : List PageFlags) (f count : Nat) : List PageFlags :=
  mapIdxFrom
    (fun i pg =>
      if i = f then PageFlags.takenFirst
      else if f < i ∧ i < f + count then PageFlags.takenOnly
      else pg)
    0 pages

/-- Result of `alloc`: the updated metadata and the index of the first page
of the returned run, or AllocError. -/
inductive AllocResult
  | ok (st : PageState) (firstPage : Nat)
  | error
deriving DecidableEq, Repr

/-- Embedding of `alloc(pages_count)`: first-fit scan of the metadata
entries from PAGE_START (`skip(PAGE_START)` keeps the original enumerate
indices), then the flag writes on success. `count ≥ 1` is enforced by
`NonZeroUsize` in the source and appears as a hypothesis on the theorems. -/
def alloc (st : PageState) (count : Nat) : AllocResult :=
  match allocLoop count (st.pages.drop st.pageStart) st.pageStart 0 0 with
  | some f => .ok { st with pages := markRun st.pages f count } f
  | none => .error

/-- Address of the start of page `f`:
`LD_HEAP_START.add(first_page * PAGE_SIZE)`. -/
def pageAddr (heapStart f : Nat) : Nat := heapStart + f * PAGE_SIZE

/-! ### dealloc -/

/-- Number of values of the `usize` type. -/
def USIZE : Nat := 2 ^ 64

/-- Embedding of the page-index computation of `dealloc`:
`page.as_ptr().offset_from(LD_HEAP_START) as usize / PAGE_SIZE`.
`offset_from` yields the signed byte difference, the `as usize` cast
reduces it modulo 2^64, and only then is it divided by PAGE_SIZE. -/
def pageIndexOf (heapStart addr : Nat) : Nat :=
  (((addr : Int) - (heapStart : Int)).emod (USIZE : Int)).toNat / PAGE_SIZE

/-- Outcome of `dealloc`: Ok with the updated metadata, one of the two
`DeallocError` variants, or a Rust panic (an out-of-bounds slice index). -/
inductive DeallocOutcome
  | ok (st : PageState)
  | invalidPointer
  | outOfRangePointer
  | panic
deriving DecidableEq, Repr

/-- Embedding of the trailing loop of `dealloc`: clears every following
page while it is taken-and-not-first (`take_while` + set EMPTY). -/
def clearTail : List PageFlags → List PageFlags
  | [] => []
  | pg :: rest =>
    if pg.is_taken_and_not_first then PageFlags.empty :: clearTail rest
    else pg :: rest

/-- Metadata surgery of a successful `dealloc`: page `idx` is set EMPTY
and the following taken-and-not-first pages are cleared by the
`take_while` loop. -/
def deallocPagesFn (st : PageState) (idx : Nat) : PageState :=
  { st with pages :=
      st.pages.take idx ++ (PageFlags.empty :: clearTail (st.pages.drop (idx + 1))) }

/-- Embedding of `dealloc(page)`.  The source takes
`pages.get_mut(page_index..)`, which is `Some` exactly when
`page_index ≤ pages.len()` (`OutOfRangePointer` otherwise), and then
indexes `pages[0]` in the sub-slice — a panic when the sub-slice is empty,
i.e. when `page_index = pages.len()`. -/
def dealloc (heapStart : Nat) (st : PageState) (addr : Nat) : DeallocOutcome :=
  let idx := pageIndexOf heapStart addr
  if idx < st.pages.length then
    let pg := (st.pages.get? idx).getD PageFlags.empty
    if pg.is_taken_and_first then .ok (deallocPagesFn st idx)
    else .invalidPointer
  else if idx = st.pages.length then .panic
  else .outOfRangePointer

/-! ### Specification-side predicates for the allocator -/

/-- Free run predicate: pages `f .. f+n-1` all exist and are not taken
(`n = 0` degenerates to `f ≤ length`). -/
def freeRunB (pages : List PageFlags) (f : Nat) : Nat → Bool
  | 0 => decide (f ≤ pages.length)
  | n + 1 => !(getTaken pages f) && freeRunB pages (f + 1) n

/-- No free run of length `n` starts at an index in `[lo, hi)`. -/
def noRunBefore (pages : List PageFlags) (lo hi n : Nat) : Prop :=
  ∀ f, lo ≤ f → f < hi → freeRunB pages f n = false

/-- First-fit specification: `f` is the least index at or after `lo` where
a free run of `n` pages starts. -/
def isLeastRun (pages : List PageFlags) (lo n f : Nat) : Prop :=
  lo ≤ f ∧ freeRunB pages f n = true ∧ noRunBefore pages lo f n

/-! ### Helper lemmas about the allocator scan -/

theorem getTaken_eq_of_get? {P : List PageFlags} {j : Nat} {pg : PageFlags}
    (h : P.get? j = some pg) : getTaken P j = pg.taken := by
  unfold getTaken
  rw [h]
  rfl

theorem getTaken_of_ge {P : List PageFlags} {j : Nat}
    (h : P.length ≤ j) : getTaken P j = true := by
  unfold getTaken
  rw [List.get?_eq_none.mpr h]
  rfl

theorem getTaken_false_lt {P : List PageFlags} {j : Nat}
    (h : getTaken P j = false) : j < P.length := by
  by_contra hge
  rw [getTaken_of_ge (Nat.le_of_not_lt hge)] at h
  exact Bool.noConfusion h

theorem freeRunB_iff (P : List PageFlags) (f n : Nat) :
    freeRunB P f n = true ↔
      f + n ≤ P.length ∧ ∀ j, f ≤ j → j < f + n → getTaken P j = false := by
  induction n generalizing f with
  | zero =>
    simp [freeRunB]
    omega
  | succ n ih =>
    simp only [freeRunB, Bool.and_eq_true, Bool.not_eq_true']
    constructor
    · rintro ⟨hf, hrest⟩
      have hlt := getTaken_false_lt hf
      obtain ⟨hlen, hall⟩ := (ih (f + 1)).mp hrest
      refine ⟨by omega, ?_⟩
      intro j hj1 hj2
      rcases Nat.eq_or_lt_of_le hj1 with rfl | hj
      · exact hf
      · exact hall j hj (by omega)
    · rintro ⟨hlen, hall⟩
      refine ⟨hall f (Nat.le_refl f) (by omega), (ih (f + 1)).mpr ⟨by omega, ?_⟩⟩
      intro j hj1 hj2
      exact hall j (by omega) (by omega)

theorem freeRunB_false_of_taken {P : List PageFlags} {f n j : Nat}
    (hj1 : f ≤ j) (hj2 : j < f + n) (ht : getTaken P j = true) :
    freeRunB P f n = false := by
  by_contra h
  have := ((freeRunB_iff P f n).mp (Bool.of_not_eq_false h)).2 j hj1 hj2
  rw [this] at ht
  exact Bool.noConfusion ht

theorem freeRunB_false_of_len {P : List PageFlags} {f n : Nat}
    (h : P.length < f + n) : freeRunB P f n = false := by
  by_contra hc
  have := ((freeRunB_iff P f n).mp (Bool.of_not_eq_false hc)).1
  omega

/-- Loop-invariant characterization of the first-fit scan of `alloc`.
When `pn = 0` no free run starts before `i`; when `0 < pn` the scan is in
the middle of the free segment `[fp, i)` with `count - pn` pages consumed
and no free run starts before `fp`.  Either way the scan returns exactly
the least index at or after `lo` where a free run of `count` pages starts,
and `none` when there is no such index. -/
theorem allocLoop_correct (count : Nat) (hc : 0 < count) (P : List PageFlags) (lo : Nat) :
    ∀ (l : List PageFlags) (i fp pn : Nat),
      P.drop i = l → lo ≤ i →
      (pn = 0 ∧ noRunBefore P lo i count
        ∨ 0 < pn ∧ pn < count ∧ lo ≤ fp ∧ fp + (count - pn) = i
           ∧ (∀ j, fp ≤ j → j < i → getTaken P j = false)
           ∧ noRunBefore P lo fp count) →
      (match allocLoop count l i fp pn with
       | some f => isLeastRun P lo count f
       | none => ∀ f, lo ≤ f → freeRunB P f count = false) := by
  intro l
  induction l with
  | nil =>
    intro i fp pn hdrop hlo hinv
    have hlen : P.length ≤ i := by
      have hd := congrArg List.length hdrop
      simp only [List.length_drop, List.length_nil] at hd
      omega
    simp only [allocLoop]
    rcases hinv with ⟨_, hnr⟩ | ⟨hpn, hpnc, hlofp, hfp, _, hnr⟩
    · intro f hf
      by_cases hfi : f < i
      · exact hnr f hf hfi
      · exact freeRunB_false_of_len (by omega)
    · intro f hf
      by_cases hffp : f < fp
      · exact hnr f hf hffp
      · exact freeRunB_false_of_len (by omega)
  | cons pg rest ih =>
    intro i fp pn hdrop hlo hinv
    have hget : P.get? i = some pg := by
      have h0 : (P.drop i).get? 0 = some pg := by rw [hdrop]; rfl
      rw [List.get?_eq_getElem?] at h0 ⊢
      rwa [List.getElem?_drop, Nat.add_zero] at h0
    have hrest : P.drop (i + 1) = rest := by
      have h1 : (P.drop i).drop 1 = rest := by rw [hdrop]; rfl
      rwa [List.drop_drop] at h1
    by_cases ht : pg.taken
    · -- taken page: reset the counter and continue
      have hgt : getTaken P i = true := by rw [getTaken_eq_of_get? hget, ht]
      have hstep : allocLoop count (pg :: rest) i fp pn =
          allocLoop count rest (i + 1) fp 0 := by
        simp [allocLoop, PageFlags.is_taken, ht]
      rw [hstep]
      refine ih (i + 1) fp 0 hrest (by omega) (Or.inl ⟨rfl, ?_⟩)
      intro f hf hfi
      rcases hinv with ⟨_, hnr⟩ | ⟨hpn, hpnc, hlofp, hfp, _, hnr⟩
      · by_cases hfi2 : f < i
        · exact hnr f hf hfi2
        · have : f = i := by omega
          subst this
          exact freeRunB_false_of_taken (Nat.le_refl f) (by omega) hgt
      · by_cases hffp : f < fp
        · exact hnr f hf hffp
        · exact freeRunB_false_of_taken (j := i) (by omega) (by omega) hgt
    · -- free page
      have hgt : getTaken P i = false := by
        rw [getTaken_eq_of_get? hget]
        exact Bool.eq_false_iff.mpr ht
      have hilen : i < P.length := getTaken_false_lt hgt
      rcases hinv with ⟨hpn0, hnr⟩ | ⟨hpn, hpnc, hlofp, hfp, hseg, hnr⟩
      · subst hpn0
        by_cases hc1 : count - 1 = 0
        · -- count = 1: found immediately, first page is i
          have hcount : count = 1 := by omega
          have hstep : allocLoop count (pg :: rest) i fp 0 = some i := by
            simp [allocLoop, PageFlags.is_taken, ht, hc1]
          rw [hstep]
          refine ⟨hlo, ?_, hnr⟩
          rw [freeRunB_iff]
          exact ⟨by omega, fun j hj1 hj2 => by
            have : j = i := by omega
            subst this
            exact hgt⟩
        · -- count > 1: start a new run at i
          have hstep : allocLoop count (pg :: rest) i fp 0 =
              allocLoop count rest (i + 1) i (count - 1) := by
            simp [allocLoop, PageFlags.is_taken, ht, hc1]
          rw [hstep]
          refine ih (i + 1) i (count - 1) hrest (by omega)
            (Or.inr ⟨by omega, by omega, hlo, by omega, ?_, hnr⟩)
          intro j hj1 hj2
          have : j = i := by omega
          subst this
          exact hgt
      · -- continuing a run
        obtain ⟨m, rfl⟩ : ∃ m, pn = m + 1 := ⟨pn - 1, by omega⟩
        by_cases hm : m = 0
        · -- last needed page: found, first page is fp
          subst hm
          have hstep : allocLoop count (pg :: rest) i fp 1 = some fp := by
            simp [allocLoop, PageFlags.is_taken, ht]
          rw [hstep]
          refine ⟨hlofp, ?_, hnr⟩
          rw [freeRunB_iff]
          refine ⟨by omega, fun j hj1 hj2 => ?_⟩
          by_cases hji : j < i
          · exact hseg j hj1 hji
          · have : j = i := by omega
            subst this
            exact hgt
        · -- more pages needed: decrement and continue
          have hstep : allocLoop count (pg :: rest) i fp (m + 1) =
              allocLoop count rest (i + 1) fp m := by
            simp [allocLoop, PageFlags.is_taken, ht, hm]
          rw [hstep]
          refine ih (i + 1) fp m hrest (by omega)
            (Or.inr ⟨by omega, by omega, hlofp, by omega, ?_, hnr⟩)
          intro j hj1 hj2
          by_cases hji : j < i
          · exact hseg j hj1 hji
          · have : j = i := by omega
            subst this
            exact hgt

theorem mapIdxFrom_get? (g : Nat → PageFlags → PageFlags) :
    ∀ (l : List PageFlags) (i k : Nat),
      (mapIdxFrom g i l).get? k = (l.get? k).map (g (i + k)) := by
  intro l
  induction l with
  | nil => intro i k; rfl
  | cons pg rest ih =>
    intro i k
    cases k with
    | zero => rfl
    | succ k =>
      show (mapIdxFrom g (i + 1) rest).get? k = (rest.get? k).map (g (i + (k + 1)))
      rw [ih (i + 1) k]
      have harith : i + 1 + k = i + (k + 1) := by omega
      rw [harith]

theorem markRun_get? (pages : List PageFlags) (f count k : Nat) :
    (markRun pages f count).get? k = (pages.get? k).map
      (fun pg =>
        if k = f then PageFlags.takenFirst
        else if f < k ∧ k < f + count then PageFlags.takenOnly
        else pg) := by
  unfold markRun
  rw [mapIdxFrom_get?]
  simp only [Nat.zero_add]

theorem mapIdxFrom_length (g : Nat → PageFlags → PageFlags) :
    ∀ (l : List PageFlags) (i : Nat), (mapIdxFrom g i l).length = l.length := by
  intro l
  induction l with
  | nil => intro i; rfl
  | cons pg rest ih =>
    intro i
    show (mapIdxFrom g (i + 1) rest).length + 1 = rest.length + 1
    rw [ih]

theorem markRun_length (pages : List PageFlags) (f count : Nat) :
    (markRun pages f count).length = pages.length :=
  mapIdxFrom_length _ pages 0

/-! ## Claim C1 -/

/-- C1: for every call alloc(n) with n ≥ 1, the allocator performs a
linear first-fit scan starting after the reserved metadata pages: when a
run of n contiguous free pages exists it returns a PAGE_SIZE-aligned
pointer to the lowest such run, marks the run's first page TAKEN|FIRST and
the remaining n-1 pages TAKEN, and leaves every other page unchanged;
when no such run exists — in particular whenever n exceeds the number of
pages in the managed region — it returns AllocError. -/
theorem C1_alloc_first_fit (heapStart : Nat) (st : PageState) (count : Nat)
    (hc : 1 ≤ count) (hal : PAGE_SIZE ∣ heapStart) :
    (match alloc st count with
     | .ok st' f =>
         isLeastRun st.pages st.pageStart count f
         ∧ pageAddr heapStart f % PAGE_SIZE = 0
         ∧ st'.pages.get? f = some PageFlags.takenFirst
         ∧ (∀ j, f < j → j < f + count → st'.pages.get? j = some PageFlags.takenOnly)
         ∧ (∀ j, j < f ∨ f + count ≤ j → st'.pages.get? j = st.pages.get? j)
         ∧ st'.pageStart = st.pageStart
     | .error =>
         ∀ f, st.pageStart ≤ f → freeRunB st.pages f count = false)
    ∧ (st.pages.length < count → alloc st count = .error) := by
  have hmain := allocLoop_correct count (by omega) st.pages st.pageStart
    (st.pages.drop st.pageStart) st.pageStart 0 0 rfl (Nat.le_refl _)
    (Or.inl ⟨rfl, fun f hf hfi => absurd hfi (by omega)⟩)
  constructor
  · unfold alloc
    cases hloop : allocLoop count (st.pages.drop st.pageStart) st.pageStart 0 0 with
    | none =>
      rw [hloop] at hmain
      exact hmain
    | some f =>
      rw [hloop] at hmain
      obtain ⟨hlof, hrun, hnr⟩ := hmain
      obtain ⟨hbound, hfree⟩ := (freeRunB_iff _ _ _).mp hrun
      have hflen : f < st.pages.length := by omega
      have hpgf := List.get?_eq_get hflen
      refine ⟨⟨hlof, hrun, hnr⟩, ?_, ?_, ?_, ?_, rfl⟩
      · have h4096 : (4096 : Nat) ∣ heapStart := hal
        show (heapStart + f * PAGE_SIZE) % PAGE_SIZE = 0
        show (heapStart + f * 4096) % 4096 = 0
        omega
      · show (markRun st.pages f count).get? f = some PageFlags.takenFirst
        rw [markRun_get?, hpgf]
        simp
      · intro j hj1 hj2
        show (markRun st.pages f count).get? j = some PageFlags.takenOnly
        have hjlen : j < st.pages.length := by omega
        have hpgj := List.get?_eq_get hjlen
        rw [markRun_get?, hpgj]
        simp only [Option.map_some']
        rw [if_neg (by omega), if_pos ⟨hj1, hj2⟩]
      · intro j hj
        show (markRun st.pages f count).get? j = st.pages.get? j
        rw [markRun_get?]
        cases hpgj : st.pages.get? j with
        | none => rfl
        | some pgj =>
          simp only [Option.map_some']
          rw [if_neg (by omega), if_neg (by omega)]
  · intro hlen
    unfold alloc
    cases hloop : allocLoop count (st.pages.drop st.pageStart) st.pageStart 0 0 with
    | none => rfl
    | some f =>
      rw [hloop] at hmain
      obtain ⟨_, hrun, _⟩ := hmain
      have := ((freeRunB_iff _ _ _).mp hrun).1
      omega

/-- Witness for C1 on an 8-page heap with heap start 8192, count 2. -/
theorem C1_alloc_first_fit_witness :
    (match alloc (pageInit 8) 2 with
     | .ok st' f =>
         isLeastRun (pageInit 8).pages (pageInit 8).pageStart 2 f
         ∧ pageAddr 8192 f % PAGE_SIZE = 0
         ∧ st'.pages.get? f = some PageFlags.takenFirst
         ∧ (∀ j, f < j → j < f + 2 → st'.pages.get? j = some PageFlags.takenOnly)
         ∧ (∀ j, j < f ∨ f + 2 ≤ j → st'.pages.get? j = (pageInit 8).pages.get? j)
         ∧ st'.pageStart = (pageInit 8).pageStart
     | .error =>
         ∀ f, (pageInit 8).pageStart ≤ f → freeRunB (pageInit 8).pages f 2 = false)
    ∧ ((pageInit 8).pages.length < 2 → alloc (pageInit 8) 2 = .error) :=
  C1_alloc_first_fit 8192 (pageInit 8) 2 (by decide) (by decide)

/-! ## Claim C2

The claim says `dealloc` never panics and that any address outside the
managed region yields `OutOfRangePointer`.  The code computes
`page_index = (ptr - LD_HEAP_START) as usize / PAGE_SIZE` and then takes
`pages.get_mut(page_index..)`, which for `page_index = pages.len()` —
i.e. for any address in the first page past the end of the region — is
`Some` of an *empty* slice, after which `pages[0]` is an out-of-bounds
index and the code panics instead of returning `OutOfRangePointer`. -/

/-- C2 failing input: on an 8-page heap starting at address 8192, a
dealloc of the address one past the end of the region (8192 + 8·4096)
reaches the out-of-bounds slice index `pages[0]` on the empty sub-slice
and panics, where the claim requires `OutOfRangePointer`. -/
theorem C2_dealloc_one_past_end_panics :
    dealloc 8192 (pageInit 8) (8192 + 8 * 4096) = .panic := by decide

/-! ## Characterization of the dealloc surgery -/

theorem clearTail_length : ∀ l : List PageFlags, (clearTail l).length = l.length := by
  intro l
  induction l with
  | nil => rfl
  | cons pg rest ih =>
    unfold clearTail
    by_cases hpg : pg.is_taken_and_not_first
    · rw [if_pos hpg]
      simp only [List.length_cons, ih]
    · rw [if_neg hpg]

theorem clearTail_get? (l : List PageFlags) :
    ∀ k, (clearTail l).get? k =
      if k < l.findIdx (fun pg => !pg.is_taken_and_not_first) then some PageFlags.empty
      else l.get? k := by
  induction l with
  | nil =>
    intro k
    have h0 : ([] : List PageFlags).findIdx (fun pg => !pg.is_taken_and_not_first) = 0 := rfl
    rw [h0, if_neg (by omega)]
    rfl
  | cons pg rest ih =>
    intro k
    by_cases hpg : pg.is_taken_and_not_first
    · have hstep : clearTail (pg :: rest) = PageFlags.empty :: clearTail rest := by
        rw [clearTail.eq_2, if_pos hpg]
      have hidx : (pg :: rest).findIdx (fun pg => !pg.is_taken_and_not_first) =
          rest.findIdx (fun pg => !pg.is_taken_and_not_first) + 1 := by
        rw [List.findIdx_cons]
        simp [hpg]
      rw [hstep, hidx]
      cases k with
      | zero => rw [if_pos (by omega)]; rfl
      | succ k =>
        show (clearTail rest).get? k = _
        rw [ih k]
        by_cases hk : k < rest.findIdx (fun pg => !pg.is_taken_and_not_first)
        · rw [if_pos hk, if_pos (by omega)]
        · rw [if_neg hk, if_neg (by omega)]; rfl
    · have hstep : clearTail (pg :: rest) = pg :: rest := by
        rw [clearTail.eq_2, if_neg hpg]
      have hidx : (pg :: rest).findIdx (fun pg => !pg.is_taken_and_not_first) = 0 := by
        rw [List.findIdx_cons]
        simp [hpg]
      rw [hstep, hidx, if_neg (by omega)]

theorem findIdx_spec (p : PageFlags → Bool) :
    ∀ (l : List PageFlags) (n : Nat),
      (∀ j, j < n → ∃ pg, l.get? j = some pg ∧ p pg = false) →
      (l.length = n ∨ ∃ pg, l.get? n = some pg ∧ p pg = true) →
      l.findIdx p = n := by
  intro l
  induction l with
  | nil =>
    intro n hn hend
    cases n with
    | zero => rfl
    | succ n =>
      obtain ⟨pg, hpg, _⟩ := hn 0 (by omega)
      exact Option.noConfusion hpg
  | cons pg rest ih =>
    intro n hn hend
    cases n with
    | zero =>
      rcases hend with hlen | ⟨pg0, hpg0, hp0⟩
      · exact absurd hlen (by simp)
      · have hpg0' : pg = pg0 := Option.some.inj hpg0
        subst hpg0'
        rw [List.findIdx_cons, hp0]
        rfl
    | succ m =>
      obtain ⟨pg0, hpg0, hp0⟩ := hn 0 (by omega)
      have hpg0' : pg = pg0 := Option.some.inj hpg0
      subst hpg0'
      rw [List.findIdx_cons, hp0]
      show rest.findIdx p + 1 = m + 1
      rw [ih m ?hn ?hend]
      case hn =>
        intro j hj
        exact hn (j + 1) (by omega)
      case hend =>
        rcases hend with hlen | ⟨pg1, hpg1, hp1⟩
        · left
          simpa using hlen
        · right
          exact ⟨pg1, hpg1, hp1⟩

/-- Effect of the metadata surgery of a successful `dealloc` on a run of
`count` pages starting at `idx`: pages `idx .. idx+count-1` become EMPTY
and every other page is unchanged. -/
theorem deallocPages_get? (P : List PageFlags) (idx count : Nat)
    (hidx : idx < P.length) (hcount : 0 < count) (hbound : idx + count ≤ P.length)
    (htail : ∀ j, idx < j → j < idx + count → P.get? j = some PageFlags.takenOnly)
    (hstop : idx + count = P.length
      ∨ P.get? (idx + count) = some PageFlags.takenFirst
      ∨ P.get? (idx + count) = some PageFlags.empty) :
    ∀ j, (P.take idx ++ (PageFlags.empty :: clearTail (P.drop (idx + 1)))).get? j
      = if idx ≤ j ∧ j < idx + count then some PageFlags.empty else P.get? j := by
  have hdropget : ∀ k, (P.drop (idx + 1)).get? k = P.get? (idx + 1 + k) := by
    intro k
    rw [List.get?_eq_getElem?, List.get?_eq_getElem?, List.getElem?_drop]
  have hdroplen : (P.drop (idx + 1)).length = P.length - (idx + 1) := by
    rw [List.length_drop]
  have hfind : (P.drop (idx + 1)).findIdx (fun pg => !pg.is_taken_and_not_first)
      = count - 1 := by
    refine findIdx_spec _ _ _ ?hn ?hend
    case hn =>
      intro j hj
      refine ⟨PageFlags.takenOnly, ?_, by rfl⟩
      rw [hdropget j]
      exact htail (idx + 1 + j) (by omega) (by omega)
    case hend =>
      rcases hstop with hlen | hfirst | hempty
      · left; omega
      · right
        refine ⟨PageFlags.takenFirst, ?_, by rfl⟩
        rw [hdropget]
        have : idx + 1 + (count - 1) = idx + count := by omega
        rw [this]
        exact hfirst
      · right
        refine ⟨PageFlags.empty, ?_, by rfl⟩
        rw [hdropget]
        have : idx + 1 + (count - 1) = idx + count := by omega
        rw [this]
        exact hempty
  have htakelen : (P.take idx).length = idx := by
    rw [List.length_take]
    omega
  intro j
  by_cases hj : j < idx
  · rw [List.get?_append (by omega), List.get?_take hj, if_neg (by omega)]
  · have hge : (P.take idx).length ≤ j := by omega
    rw [List.get?_append_right hge, htakelen]
    by_cases hj0 : j = idx
    · subst hj0
      have : j - j = 0 := by omega
      rw [this]
      rw [if_pos ⟨Nat.le_refl j, by omega⟩]
      rfl
    · have hjgt : idx < j := by omega
      have hsub : j - idx = (j - idx - 1) + 1 := by omega
      rw [hsub]
      show (clearTail (P.drop (idx + 1))).get? (j - idx - 1) = _
      rw [clearTail_get? _ _, hfind]
      by_cases hjin : j < idx + count
      · rw [if_pos (by omega), if_pos ⟨by omega, hjin⟩]
      · rw [if_neg (by omega), if_neg (by omega), hdropget]
        congr 1
        omega

/-- Length is preserved by the dealloc surgery. -/
theorem deallocPages_length (P : List PageFlags) (idx : Nat) (hidx : idx < P.length) :
    (P.take idx ++ (PageFlags.empty :: clearTail (P.drop (idx + 1)))).length
      = P.length := by
  rw [List.length_append, List.length_take, List.length_cons, clearTail_length,
    List.length_drop]
  omega

/-! ## Claim C8: allocator invariants over alloc/dealloc sequences -/

/-- Shared characterization of a successful `alloc`: the returned first
page is the least free run start at or after PAGE_START, and the state is
updated by `markRun`. -/
theorem alloc_ok_spec {st : PageState} {count : Nat} {st' : PageState} {f : Nat}
    (hc : 1 ≤ count) (h : alloc st count = .ok st' f) :
    isLeastRun st.pages st.pageStart count f
      ∧ st'.pages = markRun st.pages f count ∧ st'.pageStart = st.pageStart := by
  have hmain := allocLoop_correct count (by omega) st.pages st.pageStart
    (st.pages.drop st.pageStart) st.pageStart 0 0 rfl (Nat.le_refl _)
    (Or.inl ⟨rfl, fun f hf hfi => absurd hfi (by omega)⟩)
  unfold alloc at h
  cases hloop : allocLoop count (st.pages.drop st.pageStart) st.pageStart 0 0 with
  | none =>
    rw [hloop] at h
    exact AllocResult.noConfusion h
  | some f0 =>
    rw [hloop] at h hmain
    have hf0 : f0 = f := by
      have := AllocResult.ok.inj h
      exact this.2
    have hst : st' = { st with pages := markRun st.pages f0 count } := by
      have := AllocResult.ok.inj h
      exact this.1.symm
    subst hf0
    exact ⟨hmain, by rw [hst], by rw [hst]⟩

/-- Shared characterization of a failed `alloc`: no free run exists at or
after PAGE_START. -/
theorem alloc_error_spec {st : PageState} {count : Nat}
    (hc : 1 ≤ count) (h : alloc st count = .error) :
    ∀ f, st.pageStart ≤ f → freeRunB st.pages f count = false := by
  have hmain := allocLoop_correct count (by omega) st.pages st.pageStart
    (st.pages.drop st.pageStart) st.pageStart 0 0 rfl (Nat.le_refl _)
    (Or.inl ⟨rfl, fun f hf hfi => absurd hfi (by omega)⟩)
  unfold alloc at h
  cases hloop : allocLoop count (st.pages.drop st.pageStart) st.pageStart 0 0 with
  | none =>
    rw [hloop] at hmain
    exact hmain
  | some f0 =>
    rw [hloop] at h
    exact AllocResult.noConfusion h

/-- A live allocation: the index of its first page and its page count. -/
structure Run where
  firstPage : Nat
  count : Nat
deriving DecidableEq, Repr

/-- Page index `i` lies inside run `r`. -/
def inRun (r : Run) (i : Nat) : Prop := r.firstPage ≤ i ∧ i < r.firstPage + r.count

instance (r : Run) (i : Nat) : Decidable (inRun r i) := by
  unfold inRun
  infer_instance

/-- Two runs occupy disjoint page ranges. -/
def disjointRuns (r1 r2 : Run) : Prop := ∀ i, inRun r1 i → ¬ inRun r2 i

theorem disjointRuns_symm : Symmetric disjointRuns := by
  intro r1 r2 h i h2 h1
  exact h i h1 h2

/-- Allocator invariant, relating the metadata array to the list of live
allocations: the reserved metadata-prefix pages keep TAKEN|METADATA (and
in particular stay taken), every live run is exactly one TAKEN|FIRST page
followed by TAKEN-not-FIRST pages, every usable page outside every live
run is EMPTY (so a free page is never marked FIRST), and distinct live
runs never overlap. -/
structure Inv (st : PageState) (live : List Run) : Prop where
  startLe : st.pageStart ≤ st.pages.length
  metaPages : ∀ i, i < st.pageStart → st.pages.get? i = some PageFlags.takenMetadata
  runs : ∀ r ∈ live,
    st.pageStart ≤ r.firstPage ∧ 0 < r.count
      ∧ r.firstPage + r.count ≤ st.pages.length
      ∧ st.pages.get? r.firstPage = some PageFlags.takenFirst
      ∧ (∀ j, r.firstPage < j → j < r.firstPage + r.count →
          st.pages.get? j = some PageFlags.takenOnly)
  outside : ∀ i, st.pageStart ≤ i → i < st.pages.length →
    (∀ r ∈ live, ¬ inRun r i) → st.pages.get? i = some PageFlags.empty
  disj : live.Pairwise disjointRuns

/-- Under the invariant, a page whose TAKEN bit is clear is EMPTY, lies in
the usable region and belongs to no live run. -/
theorem Inv.free_eq_empty {st : PageState} {live : List Run} (hinv : Inv st live)
    {j : Nat} (hj : getTaken st.pages j = false) :
    st.pages.get? j = some PageFlags.empty ∧ st.pageStart ≤ j
      ∧ ∀ r ∈ live, ¬ inRun r j := by
  have hjlen : j < st.pages.length := getTaken_false_lt hj
  have hjs : st.pageStart ≤ j := by
    by_contra hlt
    have := hinv.metaPages j (by omega)
    rw [getTaken_eq_of_get? this] at hj
    exact Bool.noConfusion hj
  have hnr : ∀ r ∈ live, ¬ inRun r j := by
    intro r hr hin
    obtain ⟨_, _, _, hfirst, htail⟩ := hinv.runs r hr
    rcases Nat.eq_or_lt_of_le hin.1 with heq | hlt
    · rw [getTaken_eq_of_get? (heq ▸ hfirst)] at hj
      exact Bool.noConfusion hj
    · rw [getTaken_eq_of_get? (htail j hlt hin.2)] at hj
      exact Bool.noConfusion hj
  exact ⟨hinv.outside j hjs hjlen hnr, hjs, hnr⟩

/-- Under the invariant, every page of a free run is EMPTY and in no live
run. -/
theorem Inv.freeRun_empty {st : PageState} {live : List Run} (hinv : Inv st live)
    {f n : Nat} (hrun : freeRunB st.pages f n = true) :
    ∀ j, f ≤ j → j < f + n →
      st.pages.get? j = some PageFlags.empty ∧ st.pageStart ≤ j
        ∧ ∀ r ∈ live, ¬ inRun r j := by
  intro j hj1 hj2
  exact hinv.free_eq_empty (((freeRunB_iff _ _ _).mp hrun).2 j hj1 hj2)

/-- Invariant established by `init()`. -/
theorem Inv_init (len : Nat) : Inv (pageInit len) [] := by
  have hlen : (pageInit len).pages.length = len := by
    simp [pageInit]
  have hstart : (pageInit len).pageStart = (len * 1 + PAGE_SIZE - 1) / PAGE_SIZE := rfl
  have hget : ∀ i, i < len → (pageInit len).pages.get? i =
      some (if i < (pageInit len).pageStart then PageFlags.takenMetadata
        else PageFlags.empty) := by
    intro i hi
    show ((List.range len).map _).get? i = _
    rw [List.get?_eq_getElem?, List.getElem?_map, List.getElem?_range hi]
    rfl
  have hsle : (pageInit len).pageStart ≤ len := by
    rw [hstart]
    show (len * 1 + PAGE_SIZE - 1) / PAGE_SIZE ≤ len
    have hps : PAGE_SIZE = 4096 := rfl
    rw [hps]
    omega
  refine ⟨by rw [hlen]; exact hsle, ?_, ?_, ?_, ?_⟩
  · intro i hi
    rw [hget i (by omega), if_pos hi]
  · intro r hr
    exact absurd hr (List.not_mem_nil r)
  · intro i hi1 hi2 _
    rw [hlen] at hi2
    rw [hget i hi2, if_neg (by omega)]
  · exact List.Pairwise.nil

/-- The invariant is preserved by a successful `alloc`, with the returned
run added to the live list. -/
theorem Inv_alloc {st : PageState} {live : List Run} {count : Nat}
    {st' : PageState} {f : Nat}
    (hinv : Inv st live) (hc : 1 ≤ count) (h : alloc st count = .ok st' f) :
    Inv st' (⟨f, count⟩ :: live) := by
  obtain ⟨⟨hlof, hrun, _⟩, hpages, hps⟩ := alloc_ok_spec hc h
  obtain ⟨hbound, _⟩ := (freeRunB_iff _ _ _).mp hrun
  have hfree := hinv.freeRun_empty hrun
  have hget' : ∀ j, st'.pages.get? j = (st.pages.get? j).map (fun pg =>
      if j = f then PageFlags.takenFirst
      else if f < j ∧ j < f + count then PageFlags.takenOnly else pg) := by
    intro j
    rw [hpages, markRun_get?]
  have hlen' : st'.pages.length = st.pages.length := by
    rw [hpages, markRun_length]
  have huntouched : ∀ j, j < f ∨ f + count ≤ j →
      st'.pages.get? j = st.pages.get? j := by
    intro j hj
    rw [hget' j]
    cases hpg : st.pages.get? j with
    | none => rfl
    | some pg =>
      simp only [Option.map_some']
      rw [if_neg (by omega), if_neg (by omega)]
  have holdrun : ∀ r ∈ live, ∀ j, inRun r j → j < f ∨ f + count ≤ j := by
    intro r hr j hj
    by_contra hcontra
    push_neg at hcontra
    exact (hfree j hcontra.1 hcontra.2).2.2 r hr hj
  refine ⟨?_, ?_, ?_, ?_, ?_⟩
  · rw [hlen', hps]
    exact hinv.startLe
  · intro i hi
    rw [hps] at hi
    rw [huntouched i (Or.inl (by omega)), hinv.metaPages i hi]
  · intro r hr
    rcases List.mem_cons.mp hr with rfl | hrold
    · have hgetf : st.pages.get? f = some PageFlags.empty :=
        (hfree f (Nat.le_refl f) (by omega)).1
      refine ⟨?_, ?_, ?_, ?_, ?_⟩
      · show st'.pageStart ≤ f
        rw [hps]
        exact hlof
      · show 0 < count
        omega
      · show f + count ≤ st'.pages.length
        rw [hlen']
        exact hbound
      · show st'.pages.get? f = some PageFlags.takenFirst
        rw [hget' f, hgetf]
        simp
      · intro j hj1 hj2
        have hj1' : f < j := hj1
        have hj2' : j < f + count := hj2
        have hgetj : st.pages.get? j = some PageFlags.empty :=
          (hfree j (by omega) hj2').1
        show st'.pages.get? j = some PageFlags.takenOnly
        rw [hget' j, hgetj]
        simp only [Option.map_some']
        rw [if_neg (by omega), if_pos ⟨hj1', hj2'⟩]
    · obtain ⟨h1, h2, h3, h4, h5⟩ := hinv.runs r hrold
      refine ⟨by rw [hps]; exact h1, h2, by rw [hlen']; exact h3, ?_, ?_⟩
      · rw [huntouched r.firstPage
          (holdrun r hrold r.firstPage ⟨Nat.le_refl _, by omega⟩)]
        exact h4
      · intro j hj1 hj2
        rw [huntouched j (holdrun r hrold j ⟨by omega, hj2⟩)]
        exact h5 j hj1 hj2
  · intro i hi1 hi2 hnone
    have hnotnew : ¬ inRun ⟨f, count⟩ i := hnone ⟨f, count⟩ (List.mem_cons_self _ _)
    have hiout : i < f ∨ f + count ≤ i := by
      unfold inRun at hnotnew
      simp only [not_and, not_lt] at hnotnew
      by_cases hif : f ≤ i
      · right; exact hnotnew hif
      · left; omega
    rw [huntouched i hiout]
    rw [hps] at hi1
    rw [hlen'] at hi2
    exact hinv.outside i hi1 hi2 (fun r hr => hnone r (List.mem_cons_of_mem _ hr))
  · refine List.Pairwise.cons ?_ hinv.disj
    intro r hr i hinew hir
    exact (hfree i hinew.1 hinew.2).2.2 r hr hir

/-- Under the invariant, every page whose TAKEN and FIRST bits are both
set is the first page of some live run. -/
theorem Inv.takenFirst_is_run {st : PageState} {live : List Run}
    (hinv : Inv st live) {idx : Nat} {pgidx : PageFlags}
    (hget : st.pages.get? idx = some pgidx)
    (hpf : pgidx.is_taken_and_first = true) :
    ∃ r ∈ live, r.firstPage = idx := by
  have hidxlen : idx < st.pages.length := by
    by_contra hge
    rw [List.get?_eq_none.mpr (Nat.le_of_not_lt hge)] at hget
    exact Option.noConfusion hget
  by_cases hmeta : idx < st.pageStart
  · have hm := hinv.metaPages idx hmeta
    rw [hget] at hm
    rw [Option.some.inj hm] at hpf
    exact absurd hpf (by decide)
  · by_cases hin : ∃ r ∈ live, inRun r idx
    · obtain ⟨r, hr, hinr⟩ := hin
      rcases Nat.eq_or_lt_of_le hinr.1 with heq | hlt
      · exact ⟨r, hr, heq⟩
      · obtain ⟨_, _, _, _, h5⟩ := hinv.runs r hr
        have ho := h5 idx hlt hinr.2
        rw [hget] at ho
        rw [Option.some.inj ho] at hpf
        exact absurd hpf (by decide)
    · push_neg at hin
      have ho := hinv.outside idx (by omega) hidxlen hin
      rw [hget] at ho
      rw [Option.some.inj ho] at hpf
      exact absurd hpf (by decide)

/-- Under the invariant, the page just past the end of a live run (when it
exists) is either the TAKEN|FIRST head of another run or EMPTY — never a
TAKEN-not-FIRST page, so the clearing loop of `dealloc` stops exactly at
the end of the run. -/
theorem Inv.run_boundary {st : PageState} {live : List Run}
    (hinv : Inv st live) {r : Run} (hr : r ∈ live) :
    r.firstPage + r.count = st.pages.length
    ∨ st.pages.get? (r.firstPage + r.count) = some PageFlags.takenFirst
    ∨ st.pages.get? (r.firstPage + r.count) = some PageFlags.empty := by
  obtain ⟨h1, h2, h3, _, _⟩ := hinv.runs r hr
  by_cases he : r.firstPage + r.count = st.pages.length
  · exact Or.inl he
  · have helt : r.firstPage + r.count < st.pages.length := by omega
    by_cases hin : ∃ r' ∈ live, inRun r' (r.firstPage + r.count)
    · obtain ⟨r', hr', hin'⟩ := hin
      have hne : r' ≠ r := by
        intro heq
        subst heq
        exact absurd hin'.2 (by omega)
      rcases Nat.eq_or_lt_of_le hin'.1 with heq | hlt
      · right; left
        obtain ⟨_, _, _, h4', _⟩ := hinv.runs r' hr'
        rw [← heq]
        exact h4'
      · exfalso
        have hdisj : disjointRuns r r' :=
          hinv.disj.forall disjointRuns_symm hr hr' (fun heq => hne heq.symm)
        have hin2 : r.firstPage + r.count < r'.firstPage + r'.count := hin'.2
        exact hdisj (r.firstPage + r.count - 1) ⟨by omega, by omega⟩
          ⟨by omega, by omega⟩
    · push_neg at hin
      right; right
      exact hinv.outside _ (by omega) helt hin

/-- Conditional form of `dealloc` with the let bindings reduced. -/
theorem dealloc_eq (heapStart : Nat) (st : PageState) (addr : Nat) :
    dealloc heapStart st addr =
      (if pageIndexOf heapStart addr < st.pages.length then
        (if ((st.pages.get? (pageIndexOf heapStart addr)).getD
            PageFlags.empty).is_taken_and_first then
          DeallocOutcome.ok (deallocPagesFn st (pageIndexOf heapStart addr))
        else .invalidPointer)
      else if pageIndexOf heapStart addr = st.pages.length then .panic
      else .outOfRangePointer) := rfl

/-- The invariant is preserved by a successful `dealloc`: the target is
the first page of a unique live run, exactly that run's pages are cleared,
and the run leaves the live list. -/
theorem Inv_dealloc {heapStart : Nat} {st : PageState} {live : List Run}
    {addr : Nat} {st' : PageState}
    (hinv : Inv st live) (h : dealloc heapStart st addr = .ok st') :
    ∃ r ∈ live, r.firstPage = pageIndexOf heapStart addr
      ∧ (∀ j, st'.pages.get? j =
          if r.firstPage ≤ j ∧ j < r.firstPage + r.count then some PageFlags.empty
          else st.pages.get? j)
      ∧ st'.pageStart = st.pageStart
      ∧ st'.pages.length = st.pages.length
      ∧ Inv st' (live.filter fun r' =>
          r'.firstPage != pageIndexOf heapStart addr) := by
  rw [dealloc_eq] at h
  by_cases hlt : pageIndexOf heapStart addr < st.pages.length
  case neg =>
    rw [if_neg hlt] at h
    by_cases heq : pageIndexOf heapStart addr = st.pages.length
    · rw [if_pos heq] at h
      exact DeallocOutcome.noConfusion h
    · rw [if_neg heq] at h
      exact DeallocOutcome.noConfusion h
  rw [if_pos hlt] at h
  have hpgidx := List.get?_eq_get hlt
  by_cases hpf : ((st.pages.get? (pageIndexOf heapStart addr)).getD
      PageFlags.empty).is_taken_and_first
  case neg =>
    rw [if_neg hpf] at h
    exact DeallocOutcome.noConfusion h
  rw [if_pos hpf] at h
  have hst' : st' = deallocPagesFn st (pageIndexOf heapStart addr) :=
    (DeallocOutcome.ok.inj h).symm
  rw [hpgidx] at hpf
  simp only [Option.getD_some] at hpf
  obtain ⟨r, hr, hrfp⟩ := hinv.takenFirst_is_run hpgidx hpf
  obtain ⟨h1, h2, h3, h4, h5⟩ := hinv.runs r hr
  have hstop := hinv.run_boundary hr
  rw [hrfp] at h1 h3 h4 h5 hstop
  have hsurg := deallocPages_get? st.pages (pageIndexOf heapStart addr) r.count
    hlt h2 h3 h5 hstop
  have hlen : st'.pages.length = st.pages.length := by
    rw [hst']
    exact deallocPages_length st.pages (pageIndexOf heapStart addr) hlt
  have hget' : ∀ j, st'.pages.get? j =
      if pageIndexOf heapStart addr ≤ j ∧ j < pageIndexOf heapStart addr + r.count
      then some PageFlags.empty else st.pages.get? j := by
    intro j
    rw [hst']
    exact hsurg j
  have hmemrun : ∀ r'' ∈ live, 0 < r''.count := by
    intro r'' hr''
    exact (hinv.runs r'' hr'').2.1
  -- a run of live containing a page of the cleared range must be r itself
  have hunique : ∀ r'' ∈ live, r''.firstPage = pageIndexOf heapStart addr → r'' = r := by
    intro r'' hr'' hfp''
    by_contra hne
    have hdisj : disjointRuns r'' r :=
      hinv.disj.forall disjointRuns_symm hr'' hr hne
    exact hdisj (pageIndexOf heapStart addr)
      ⟨by omega, by have := hmemrun r'' hr''; omega⟩
      ⟨by omega, by omega⟩
  refine ⟨r, hr, hrfp, ?_, by rw [hst']; rfl, hlen, ?_, ?_, ?_, ?_, ?_⟩
  · intro j
    rw [hrfp]
    exact hget' j
  -- Inv fields for the filtered live list
  · rw [hlen, hst']
    exact hinv.startLe
  · intro i hi
    have hips : i < st.pageStart := by
      rw [hst'] at hi
      exact hi
    rw [hget' i, if_neg (by omega)]
    exact hinv.metaPages i hips
  · intro r'' hr''mem
    obtain ⟨hmem, hcond⟩ := List.mem_filter.mp hr''mem
    have hne : r''.firstPage ≠ pageIndexOf heapStart addr := by
      intro heq
      rw [heq] at hcond
      simp at hcond
    have hner : r'' ≠ r := by
      intro heq
      rw [heq] at hne
      exact hne hrfp
    obtain ⟨h1'', h2'', h3'', h4'', h5''⟩ := hinv.runs r'' hmem
    have hdisj : disjointRuns r'' r :=
      hinv.disj.forall disjointRuns_symm hmem hr hner
    have hout : ∀ j, inRun r'' j →
        ¬ (pageIndexOf heapStart addr ≤ j ∧
           j < pageIndexOf heapStart addr + r.count) := by
      intro j hj hcontra
      exact hdisj j hj ⟨by omega, by omega⟩
    refine ⟨by rw [hst']; exact h1'', h2'', by rw [hlen]; exact h3'', ?_, ?_⟩
    · rw [hget' _, if_neg (hout r''.firstPage ⟨Nat.le_refl _, by omega⟩)]
      exact h4''
    · intro j hj1 hj2
      rw [hget' j, if_neg (hout j ⟨by omega, hj2⟩)]
      exact h5'' j hj1 hj2
  · intro i hi1 hi2 hnone
    rw [hst'] at hi1
    rw [hlen] at hi2
    by_cases hin : pageIndexOf heapStart addr ≤ i ∧
        i < pageIndexOf heapStart addr + r.count
    · rw [hget' i, if_pos hin]
    · rw [hget' i, if_neg hin]
      refine hinv.outside i hi1 hi2 ?_
      intro r'' hr'' hinr''
      by_cases hfp'' : r''.firstPage = pageIndexOf heapStart addr
      · have := hunique r'' hr'' hfp''
        subst this
        exact hin ⟨by rw [← hrfp]; exact hinr''.1, by rw [← hrfp]; exact hinr''.2⟩
      · refine hnone r'' ?_ hinr''
        refine List.mem_filter.mpr ⟨hr'', ?_⟩
        simp [hfp'']
  · exact hinv.disj.sublist (List.filter_sublist _)

/-- An allocator call in a call sequence: `alloc(countMinusOne + 1)`
(the +1 reflects `NonZeroUsize`) or `dealloc(addr)`. -/
inductive PageOp
  | opAlloc (countMinusOne : Nat)
  | opDealloc (addr : Nat)
deriving DecidableEq, Repr

/-- One allocator call applied to the metadata state paired with the list
of live runs; `none` models a halt (the dealloc panic).  A failed alloc
and a dealloc error leave the metadata untouched, as in the source. -/
def applyOp (heapStart : Nat) (s : PageState × List Run) :
    PageOp → Option (PageState × List Run)
  | .opAlloc c =>
    match alloc s.1 (c + 1) with
    | .ok st' f => some (st', ⟨f, c + 1⟩ :: s.2)
    | .error => some s
  | .opDealloc addr =>
    match dealloc heapStart s.1 addr with
    | .ok st' => some (st', s.2.filter fun r' =>
        r'.firstPage != pageIndexOf heapStart addr)
    | .invalidPointer => some s
    | .outOfRangePointer => some s
    | .panic => none

/-- A sequence of allocator calls, stopping at a panic. -/
def applyOps (heapStart : Nat) :
    List PageOp → (PageState × List Run) → Option (PageState × List Run)
  | [], s => some s
  | op :: ops, s =>
    match applyOp heapStart s op with
    | some s' => applyOps heapStart ops s'
    | none => none

theorem applyOp_inv {heapStart : Nat} {s s' : PageState × List Run} {op : PageOp}
    (hinv : Inv s.1 s.2) (h : applyOp heapStart s op = some s') :
    Inv s'.1 s'.2 := by
  cases op with
  | opAlloc c =>
    simp only [applyOp] at h
    cases halloc : alloc s.1 (c + 1) with
    | ok st' f =>
      rw [halloc] at h
      rw [← Option.some.inj h]
      exact Inv_alloc hinv (by omega) halloc
    | error =>
      rw [halloc] at h
      rw [← Option.some.inj h]
      exact hinv
  | opDealloc addr =>
    simp only [applyOp] at h
    cases hd : dealloc heapStart s.1 addr with
    | ok st' =>
      rw [hd] at h
      rw [← Option.some.inj h]
      obtain ⟨r, hr, _, _, _, _, hinv'⟩ := Inv_dealloc hinv hd
      exact hinv'
    | invalidPointer =>
      rw [hd] at h
      rw [← Option.some.inj h]
      exact hinv
    | outOfRangePointer =>
      rw [hd] at h
      rw [← Option.some.inj h]
      exact hinv
    | panic =>
      rw [hd] at h
      exact Option.noConfusion h

theorem applyOps_inv {heapStart : Nat} (ops : List PageOp) :
    ∀ s s' : PageState × List Run, Inv s.1 s.2 →
      applyOps heapStart ops s = some s' → Inv s'.1 s'.2 := by
  induction ops with
  | nil =>
    intro s s' hinv h
    rw [← Option.some.inj h]
    exact hinv
  | cons op ops ih =>
    intro s s' hinv h
    simp only [applyOps] at h
    cases hop : applyOp heapStart s op with
    | some s1 =>
      rw [hop] at h
      exact ih s1 s' (applyOp_inv hinv hop) h
    | none =>
      rw [hop] at h
      exact Option.noConfusion h

/-- C8: after init(), under every sequence of alloc and dealloc calls,
the page metadata satisfies the allocator invariant: the reserved
metadata-prefix pages remain TAKEN (|METADATA); every live allocated run
is exactly one page marked FIRST followed by taken-not-first pages; page
ranges of distinct live allocations never overlap; and a free page is
never marked FIRST. -/
theorem C8_allocator_invariants (heapStart len : Nat) (ops : List PageOp)
    (st' : PageState) (live' : List Run)
    (h : applyOps heapStart ops (pageInit len, []) = some (st', live')) :
    Inv st' live'
    ∧ (∀ i, i < st'.pageStart → st'.pages.get? i = some PageFlags.takenMetadata)
    ∧ (∀ i pg, st'.pages.get? i = some pg → pg.taken = false → pg.first = false)
    ∧ live'.Pairwise disjointRuns := by
  have hinv : Inv st' live' :=
    applyOps_inv ops (pageInit len, []) (st', live') (Inv_init len) h
  refine ⟨hinv, hinv.metaPages, ?_, hinv.disj⟩
  intro i pg hget htaken
  have hgt : getTaken st'.pages i = false := by
    rw [getTaken_eq_of_get? hget]
    exact htaken
  have hempty := (hinv.free_eq_empty hgt).1
  rw [hget] at hempty
  rw [Option.some.inj hempty]
  rfl

/-- Witness for C8: an 8-page heap, a 2-page alloc, its dealloc, then a
1-page alloc. -/
theorem C8_allocator_invariants_witness :
    Inv { pages := [PageFlags.takenMetadata, PageFlags.takenFirst, PageFlags.empty,
            PageFlags.empty, PageFlags.empty, PageFlags.empty, PageFlags.empty,
            PageFlags.empty], pageStart := 1 } [⟨1, 1⟩]
    ∧ (∀ i, i < PageState.pageStart { pages := [PageFlags.takenMetadata,
          PageFlags.takenFirst, PageFlags.empty, PageFlags.empty, PageFlags.empty,
          PageFlags.empty, PageFlags.empty, PageFlags.empty], pageStart := 1 } →
        List.get? (PageState.pages { pages := [PageFlags.takenMetadata,
          PageFlags.takenFirst, PageFlags.empty, PageFlags.empty, PageFlags.empty,
          PageFlags.empty, PageFlags.empty, PageFlags.empty], pageStart := 1 }) i
          = some PageFlags.takenMetadata)
    ∧ (∀ i pg, List.get? (PageState.pages { pages := [PageFlags.takenMetadata,
          PageFlags.takenFirst, PageFlags.empty, PageFlags.empty, PageFlags.empty,
          PageFlags.empty, PageFlags.empty, PageFlags.empty], pageStart := 1 }) i
          = some pg → pg.taken = false → pg.first = false)
    ∧ List.Pairwise disjointRuns [(⟨1, 1⟩ : Run)] :=
  C8_allocator_invariants 8192 8
    [PageOp.opAlloc 1, PageOp.opDealloc (8192 + PAGE_SIZE), PageOp.opAlloc 0]
    { pages := [PageFlags.takenMetadata, PageFlags.takenFirst, PageFlags.empty,
        PageFlags.empty, PageFlags.empty, PageFlags.empty, PageFlags.empty,
        PageFlags.empty], pageStart := 1 } [⟨1, 1⟩]
    (by decide)

/-! ## Process manager embedding (src/process/mod.rs)

The process storage is a singly-linked chain of pages, each holding
`PROCESS_COUNT_PER_PAGE` record slots plus a trailing next-page pointer
slot; records are written densely in spawn order, so slot `(page, index)`
of the chain holds the record with pid `page * PROCESS_COUNT_PER_PAGE +
index`.  The chain is modelled as the flattened list of the first
PROCESS_COUNT records, `RUNNING_PROCESS` as the pid of the record the
pointer designates, and the page-allocator state is threaded through. -/

/-- Size of `ProcessEntry` (289 bytes of fields padded to align 8). -/
def PROCESS_ENTRY_SIZE : Nat := 296

/-- Record slots per chain page: `PAGE_SIZE / size_of::<ProcessEntry>() - 1`. -/
def PROCESS_COUNT_PER_PAGE : Nat := PAGE_SIZE / PROCESS_ENTRY_SIZE - 1

/-- Maximum length of a process name. -/
def PROCESS_NAME_MAX_LEN : Nat := 128

/-- ProcessState enum of the source. -/
inductive ProcessState
  | invalid
  | spawned
  | waiting
  | running
  | dead
deriving DecidableEq, Repr

/-- Saved context: program counter, stack pointer, callee-saved s0-s11. -/
structure Context where
  pc : Nat
  sp : Nat
  sx : List Nat
deriving DecidableEq, Repr

/-- A process record.  `name` models the meaningful `name[..name_len]`
prefix of the fixed 128-byte buffer. -/
structure Process where
  pid : Nat
  parent_pid : Nat
  stack_start : Nat
  stack_end : Nat
  context : Context
  name : List UInt8
  state : ProcessState
deriving DecidableEq, Repr

/-- Kernel-side state of the process manager: heap base address, page
allocator metadata, the flattened process table (length = PROCESS_COUNT),
PROCESS_PAGE_COUNT, and RUNNING_PROCESS as the designated pid. -/
structure Kernel where
  heapStart : Nat
  pageSt : PageState
  procs : List Process
  pageCount : Nat
  running : Option Nat
deriving DecidableEq, Repr

/-- Embedding of process `init()`: allocates the first chain page
(`unwrap` panics on failure, modelled as `none`). -/
def procInit (heapStart : Nat) (pst : PageState) : Option Kernel :=
  match alloc pst 1 with
  | .ok pst' _ =>
    some { heapStart := heapStart, pageSt := pst', procs := [],
           pageCount := 1, running := none }
  | .error => none

/-- Embedding of `spawn(entry_point, name)`.  Grows the page chain when
`PROCESS_COUNT > 0 && PROCESS_COUNT % PROCESS_COUNT_PER_PAGE == 0`, then
allocates the one-page stack, and fills the next dense slot (pid =
PROCESS_COUNT) with state Spawned, pc = entry point, sp = stack top.
Each `unwrap` of a failed alloc is a panic, modelled as `none`. -/
def spawn (k : Kernel) (entry : Nat) (name : List UInt8) :
    Option (Kernel × Nat) :=
  let step1 : Option Kernel :=
    if 0 < k.procs.length ∧ k.procs.length % PROCESS_COUNT_PER_PAGE = 0 then
      match alloc k.pageSt 1 with
      | .ok pst' _ => some { k with pageSt := pst', pageCount := k.pageCount + 1 }
      | .error => none
    else some k
  match step1 with
  | none => none
  | some k1 =>
    match alloc k1.pageSt 1 with
    | .error => none
    | .ok pst2 f =>
      let stackStart := pageAddr k1.heapStart f
      let pid := k1.procs.length
      let p : Process :=
        { pid := pid, parent_pid := 0,
          stack_start := stackStart, stack_end := stackStart + PAGE_SIZE,
          context := { pc := entry, sp := stackStart + PAGE_SIZE,
                       sx := List.replicate 12 0 },
          name := name, state := .spawned }
      some ({ k1 with pageSt := pst2, procs := k1.procs ++ [p] }, pid)

/-- Embedding of `iter()`: the records with index < PROCESS_COUNT whose
state is not Invalid, in table order. -/
def procIter (k : Kernel) : List Process :=
  k.procs.filter (fun p => p.state != ProcessState.invalid)

/-- Runnable state test: Spawned or Waiting. -/
def runnableB (p : Process) : Bool :=
  p.state == ProcessState.spawned || p.state == ProcessState.waiting

/-- Embedding of the loop of `get_next_process`: threads the
`first_process` and `passed_current` locals exactly as the source does. -/
def getNextLoop (cur : Nat) : List Process → Option Process → Bool → Option Process
  | [], first, _ => first
  | p :: rest, first, passed =>
    if p.pid = cur then getNextLoop cur rest first true
    else if p.state = ProcessState.spawned ∨ p.state = ProcessState.waiting then
      if passed then some p
      else getNextLoop cur rest (if first.isNone then some p else first) passed
    else getNextLoop cur rest first passed

/-- Embedding of `get_next_process(current_pid)`. -/
def get_next_process (k : Kernel) (cur : Nat) : Option Process :=
  getNextLoop cur (procIter k) none false

/-- Embedding of `wait()`: returns the new kernel state and the pid
switched to (`none` when no switch happens and `wait` returns
immediately). -/
def wait (k : Kernel) : Kernel × Option Nat :=
  match k.running with
  | none => (k, none)
  | some curPid =>
    match get_next_process k curPid with
    | none => (k, none)
    | some next =>
      ({ k with
          procs := k.procs.map (fun p =>
            if p.pid = curPid then { p with state := .waiting } else p),
          running := some next.pid },
        some next.pid)

/-- Outcome of a no-return dispatch: a context switch to a pid, or the
hart is halted (`asm_abort`). -/
inductive Dispatch
  | switched (pid : Nat)
  | halted
deriving DecidableEq, Repr

/-- Embedding of `exit()`.  Never returns normally: the result is either a
switch to another process or a halt (and `none` models the panic of the
`dealloc(...).unwrap()` or a dangling RUNNING_PROCESS pid).  Marks the
current process Dead, zeroes its saved pc/sp, frees its stack page, then
picks the next process with `get_next_process`. -/
def exit (k : Kernel) : Option (Kernel × Dispatch) :=
  match k.running with
  | none => some (k, .halted)
  | some curPid =>
    match k.procs.find? (fun p => p.pid == curPid) with
    | none => none
    | some cur =>
      match dealloc k.heapStart k.pageSt cur.stack_start with
      | .ok pst' =>
        let k1 := { k with
          pageSt := pst',
          procs := k.procs.map (fun p =>
            if p.pid = curPid then
              { p with state := .dead,
                       context := { p.context with pc := 0, sp := 0 } }
            else p) }
        match get_next_process k1 curPid with
        | some next => some ({ k1 with running := some next.pid }, .switched next.pid)
        | none => some (k1, .halted)
      | _ => none

/-- Embedding of `start_schedule()`: picks `iter().next()` — the first
table entry whose state is not Invalid — and switches to it, or halts the
hart when there is none. -/
def start_schedule (k : Kernel) : Kernel × Dispatch :=
  match procIter k with
  | [] => (k, .halted)
  | p :: _ => ({ k with running := some p.pid }, .switched p.pid)

/-! ### Characterization of the round-robin scan -/

/-- Combined test used by `get_next_process` for a non-current entry:
not the current pid, and in a runnable state. -/
def nextPred (cur : Nat) (p : Process) : Bool := (p.pid != cur) && runnableB p

/-- First-of-two option choice (the accumulator discipline of
`first_process`). -/
def orO (a b : Option Process) : Option Process :=
  match a with
  | some x => some x
  | none => b

theorem orO_none_right (a : Option Process) : orO a none = a := by
  cases a <;> rfl

theorem runnableB_iff (p : Process) :
    runnableB p = true ↔ (p.state = .spawned ∨ p.state = .waiting) := by
  cases hp : p.state <;> simp [runnableB, hp]

theorem mem_procIter {k : Kernel} {p : Process} :
    p ∈ procIter k ↔ p ∈ k.procs ∧ p.state ≠ .invalid := by
  simp [procIter, List.mem_filter]

/-- After the current pid has been passed, the scan returns the first
runnable non-current entry of the remaining list, falling back to the
accumulated `first_process`. -/
theorem getNextLoop_passed (cur : Nat) :
    ∀ (l : List Process) (first : Option Process),
      getNextLoop cur l first true = orO (l.find? (nextPred cur)) first := by
  intro l
  induction l with
  | nil => intro first; rfl
  | cons p rest ih =>
    intro first
    by_cases hpid : p.pid = cur
    · have hstep : getNextLoop cur (p :: rest) first true
          = getNextLoop cur rest first true := by
        rw [getNextLoop.eq_2, if_pos hpid]
      have hfind : (p :: rest).find? (nextPred cur) = rest.find? (nextPred cur) :=
        List.find?_cons_of_neg _ (by simp [nextPred, hpid])
      rw [hstep, hfind, ih first]
    · by_cases hrun : p.state = ProcessState.spawned ∨ p.state = ProcessState.waiting
      · have hstep : getNextLoop cur (p :: rest) first true = some p := by
          rw [getNextLoop.eq_2, if_neg hpid, if_pos hrun]
          rfl
        have hfind : (p :: rest).find? (nextPred cur) = some p :=
          List.find?_cons_of_pos _ (by
            simp [nextPred, hpid]
            exact (runnableB_iff p).mpr hrun)
        rw [hstep, hfind]
        rfl
      · have hstep : getNextLoop cur (p :: rest) first true
            = getNextLoop cur rest first true := by
          rw [getNextLoop.eq_2, if_neg hpid, if_neg hrun]
        have hfind : (p :: rest).find? (nextPred cur) = rest.find? (nextPred cur) :=
          List.find?_cons_of_neg _ (by
            simp [nextPred, hpid]
            by_contra hr
            exact hrun ((runnableB_iff p).mp (Bool.of_not_eq_false hr)))
        rw [hstep, hfind, ih first]

/-- Full characterization of the scan when the current record sits at a
known position: the result is the first runnable entry after the current
one, then (wrapping around) the first runnable entry before it, then the
accumulated `first_process`. -/
theorem getNextLoop_split (cur : Nat) (c : Process) (hc : c.pid = cur)
    (l2 : List Process) :
    ∀ (l1 : List Process) (first : Option Process),
      (∀ p ∈ l1, p.pid ≠ cur) →
      getNextLoop cur (l1 ++ c :: l2) first false =
        orO (l2.find? (nextPred cur)) (orO first (l1.find? (nextPred cur))) := by
  intro l1
  induction l1 with
  | nil =>
    intro first _
    show getNextLoop cur (c :: l2) first false = _
    have hstep : getNextLoop cur (c :: l2) first false
        = getNextLoop cur l2 first true := by
      rw [getNextLoop.eq_2, if_pos hc]
    rw [hstep, getNextLoop_passed cur l2 first]
    rw [List.find?_nil, orO_none_right]
  | cons p l1' ih =>
    intro first hne
    have hpid : p.pid ≠ cur := hne p (List.mem_cons_self _ _)
    have hne' : ∀ q ∈ l1', q.pid ≠ cur := fun q hq => hne q (List.mem_cons_of_mem _ hq)
    show getNextLoop cur (p :: (l1' ++ c :: l2)) first false = _
    by_cases hrun : p.state = ProcessState.spawned ∨ p.state = ProcessState.waiting
    · have hstep : getNextLoop cur (p :: (l1' ++ c :: l2)) first false
          = getNextLoop cur (l1' ++ c :: l2)
              (if first.isNone then some p else first) false := by
        rw [getNextLoop.eq_2, if_neg hpid, if_pos hrun, if_neg Bool.false_ne_true]
      have hfirst : (if first.isNone then some p else first) = orO first (some p) := by
        cases first <;> rfl
      have hfind : (p :: l1').find? (nextPred cur) = some p :=
        List.find?_cons_of_pos _ (by
          simp [nextPred, hpid]
          exact (runnableB_iff p).mpr hrun)
      rw [hstep, hfirst, ih (orO first (some p)) hne', hfind]
      congr 1
      cases first <;> rfl
    · have hstep : getNextLoop cur (p :: (l1' ++ c :: l2)) first false
          = getNextLoop cur (l1' ++ c :: l2) first false := by
        rw [getNextLoop.eq_2, if_neg hpid, if_neg hrun]
      have hfind : (p :: l1').find? (nextPred cur) = l1'.find? (nextPred cur) :=
        List.find?_cons_of_neg _ (by
          simp [nextPred, hpid]
          by_contra hr
          exact hrun ((runnableB_iff p).mp (Bool.of_not_eq_false hr)))
      rw [hstep, ih first hne', hfind]

/-- In a list with strictly increasing pids, `find?` returns the entry
with the least pid among those satisfying the predicate. -/
theorem find?_min_pid (pd : Process → Bool) :
    ∀ (l : List Process), List.Pairwise (fun a b => a.pid < b.pid) l →
      ∀ q, l.find? pd = some q →
        q ∈ l ∧ pd q = true ∧ ∀ r ∈ l, pd r = true → q.pid ≤ r.pid := by
  intro l
  induction l with
  | nil =>
    intro _ q hq
    exact Option.noConfusion hq
  | cons p rest ih =>
    intro hpw q hq
    obtain ⟨hplt, hpw'⟩ := List.pairwise_cons.mp hpw
    by_cases hp : pd p
    · rw [List.find?_cons_of_pos _ hp] at hq
      have hqp : q = p := (Option.some.inj hq).symm
      subst hqp
      refine ⟨List.mem_cons_self _ _, hp, ?_⟩
      intro r hr _
      rcases List.mem_cons.mp hr with rfl | hr'
      · exact Nat.le_refl _
      · exact Nat.le_of_lt (hplt r hr')
    · rw [List.find?_cons_of_neg _ hp] at hq
      obtain ⟨hmem, hpred, hmin⟩ := ih hpw' q hq
      refine ⟨List.mem_cons_of_mem _ hmem, hpred, ?_⟩
      intro r hr hpr
      rcases List.mem_cons.mp hr with rfl | hr'
      · exact absurd hpr (by simp [hp])
      · exact hmin r hr' hpr

/-- Round-robin characterization of `get_next_process` for a table with
strictly increasing pids that contains the current record: the chosen
process is the runnable entry with the least pid strictly greater than
the current pid, or — when none exists — the runnable entry with the
least pid overall; entries that are not Spawned/Waiting are never chosen;
`none` exactly when no runnable entry other than the current one exists. -/
theorem get_next_spec (k : Kernel) (cur : Nat)
    (hsort : List.Pairwise (fun a b => a.pid < b.pid) k.procs)
    (hcur : ∃ c ∈ k.procs, c.pid = cur ∧ c.state ≠ ProcessState.invalid) :
    match get_next_process k cur with
    | some q =>
        q ∈ k.procs ∧ (q.state = .spawned ∨ q.state = .waiting) ∧ q.pid ≠ cur
        ∧ ((cur < q.pid ∧ ∀ r ∈ k.procs,
              (r.state = .spawned ∨ r.state = .waiting) → cur < r.pid → q.pid ≤ r.pid)
           ∨ ((∀ r ∈ k.procs, (r.state = .spawned ∨ r.state = .waiting) → ¬ cur < r.pid)
              ∧ ∀ r ∈ k.procs, (r.state = .spawned ∨ r.state = .waiting) →
                  r.pid ≠ cur → q.pid ≤ r.pid))
    | none => ∀ r ∈ k.procs, r.pid ≠ cur →
        ¬(r.state = .spawned ∨ r.state = .waiting) := by
  obtain ⟨c, hcmem, hcpid, hcinv⟩ := hcur
  have hciter : c ∈ procIter k := mem_procIter.mpr ⟨hcmem, hcinv⟩
  have hsubset : ∀ p, p ∈ procIter k → p ∈ k.procs := by
    intro p hp
    exact (mem_procIter.mp hp).1
  have hsort' : List.Pairwise (fun a b => a.pid < b.pid) (procIter k) :=
    hsort.filter _
  obtain ⟨l1, l2, hsplit⟩ := List.append_of_mem hciter
  rw [hsplit] at hsort'
  obtain ⟨hpw1, hpwc, hcross⟩ := List.pairwise_append.mp hsort'
  obtain ⟨hclt, hpw2⟩ := List.pairwise_cons.mp hpwc
  have hl1lt : ∀ p ∈ l1, p.pid < cur := by
    intro p hp
    have := hcross p hp c (List.mem_cons_self _ _)
    omega
  have hl2gt : ∀ p ∈ l2, cur < p.pid := by
    intro p hp
    have := hclt p hp
    omega
  have hl1ne : ∀ p ∈ l1, p.pid ≠ cur := fun p hp => by
    have := hl1lt p hp
    omega
  -- membership in the iterator for runnable records
  have hrunmem : ∀ r ∈ k.procs, (r.state = .spawned ∨ r.state = .waiting) →
      r ∈ l1 ∨ r = c ∨ r ∈ l2 := by
    intro r hr hrun
    have : r ∈ procIter k := mem_procIter.mpr ⟨hr, by
      rcases hrun with h | h <;> rw [h] <;> intro hcontra <;> exact ProcessState.noConfusion hcontra⟩
    rw [hsplit] at this
    rcases List.mem_append.mp this with h | h
    · exact Or.inl h
    · rcases List.mem_cons.mp h with h | h
      · exact Or.inr (Or.inl h)
      · exact Or.inr (Or.inr h)
  have hloop : get_next_process k cur
      = orO (l2.find? (nextPred cur)) (l1.find? (nextPred cur)) := by
    show getNextLoop cur (procIter k) none false = _
    rw [hsplit, getNextLoop_split cur c hcpid l2 l1 none hl1ne]
    rfl
  rw [hloop]
  cases hf2 : l2.find? (nextPred cur) with
  | some q =>
    obtain ⟨hqmem, hqpred, hqmin⟩ := find?_min_pid (nextPred cur) l2 hpw2 q hf2
    have hqrun : q.state = .spawned ∨ q.state = .waiting := by
      have := (Bool.and_eq_true _ _).mp hqpred
      exact (runnableB_iff q).mp this.2
    have hqgt : cur < q.pid := hl2gt q hqmem
    have hqprocs : q ∈ k.procs := hsubset q (by
      rw [hsplit]
      exact List.mem_append.mpr (Or.inr (List.mem_cons_of_mem _ hqmem)))
    show q ∈ k.procs ∧ _
    refine ⟨hqprocs, hqrun, by omega, Or.inl ⟨hqgt, ?_⟩⟩
    intro r hr hrrun hrgt
    rcases hrunmem r hr hrrun with h | h | h
    · exact absurd (hl1lt r h) (by omega)
    · subst h
      omega
    · refine hqmin r h ?_
      simp [nextPred]
      refine ⟨by omega, (runnableB_iff r).mpr hrrun⟩
  | none =>
    have hno2 : ∀ r ∈ l2, nextPred cur r = false := by
      intro r hr
      have := List.find?_eq_none.mp hf2 r hr
      exact Bool.eq_false_iff.mpr this
    have hnogt : ∀ r ∈ k.procs, (r.state = .spawned ∨ r.state = .waiting) →
        ¬ cur < r.pid := by
      intro r hr hrrun hrgt
      rcases hrunmem r hr hrrun with h | h | h
      · exact absurd (hl1lt r h) (by omega)
      · subst h
        omega
      · have := hno2 r h
        simp [nextPred] at this
        exact absurd ((runnableB_iff r).mpr hrrun) (by
          rw [this (by omega)]
          intro hcontra
          exact Bool.noConfusion hcontra)
    cases hf1 : l1.find? (nextPred cur) with
    | some q =>
      obtain ⟨hqmem, hqpred, hqmin⟩ := find?_min_pid (nextPred cur) l1 hpw1 q hf1
      have hqrun : q.state = .spawned ∨ q.state = .waiting := by
        have := (Bool.and_eq_true _ _).mp hqpred
        exact (runnableB_iff q).mp this.2
      have hqprocs : q ∈ k.procs := hsubset q (by
        rw [hsplit]
        exact List.mem_append.mpr (Or.inl hqmem))
      show q ∈ k.procs ∧ _
      refine ⟨hqprocs, hqrun, hl1ne q hqmem, Or.inr ⟨hnogt, ?_⟩⟩
      intro r hr hrrun hrne
      rcases hrunmem r hr hrrun with h | h | h
      · refine hqmin r h ?_
        simp [nextPred]
        refine ⟨hl1ne r h, (runnableB_iff r).mpr hrrun⟩
      · subst h
        exact absurd hcpid hrne
      · exact absurd (hl2gt r h) (hnogt r hr hrrun)
    | none =>
      show ∀ r ∈ k.procs, r.pid ≠ cur → ¬(r.state = .spawned ∨ r.state = .waiting)
      intro r hr hrne hrrun
      rcases hrunmem r hr hrrun with h | h | h
      · have := List.find?_eq_none.mp hf1 r h
        exact this (by
          simp [nextPred]
          exact ⟨hrne, (runnableB_iff r).mpr hrrun⟩)
      · subst h
        exact hrne hcpid
      · have := List.find?_eq_none.mp hf2 r h
        exact this (by
          simp [nextPred]
          exact ⟨hrne, (runnableB_iff r).mpr hrrun⟩)

/-! ## Claim C3 -/

/-- C3: at a scheduling decision with current process id `cur` (the
decision function `get_next_process` shared by wait() and exit()), the
chosen process is the Spawned-or-Waiting entry with the smallest id
strictly greater than `cur`, or, when none exists, the Spawned-or-Waiting
entry with the smallest id overall (wraparound); Dead and Invalid entries
are never chosen; and when no Spawned-or-Waiting entry other than the
current one exists, no switch occurs — wait() leaves the state unchanged
and returns. -/
theorem C3_round_robin_next (k : Kernel) (cur : Nat)
    (hrun : k.running = some cur)
    (hsort : List.Pairwise (fun a b => a.pid < b.pid) k.procs)
    (hcur : ∃ c ∈ k.procs, c.pid = cur ∧ c.state ≠ ProcessState.invalid) :
    match get_next_process k cur with
    | some q =>
        q ∈ k.procs ∧ (q.state = .spawned ∨ q.state = .waiting) ∧ q.pid ≠ cur
        ∧ ((cur < q.pid ∧ ∀ r ∈ k.procs,
              (r.state = .spawned ∨ r.state = .waiting) → cur < r.pid → q.pid ≤ r.pid)
           ∨ ((∀ r ∈ k.procs, (r.state = .spawned ∨ r.state = .waiting) → ¬ cur < r.pid)
              ∧ ∀ r ∈ k.procs, (r.state = .spawned ∨ r.state = .waiting) →
                  r.pid ≠ cur → q.pid ≤ r.pid))
        ∧ (wait k).2 = some q.pid ∧ (wait k).1.running = some q.pid
    | none =>
        (∀ r ∈ k.procs, r.pid ≠ cur → ¬(r.state = .spawned ∨ r.state = .waiting))
        ∧ wait k = (k, none) := by
  have h := get_next_spec k cur hsort hcur
  cases hnext : get_next_process k cur with
  | some q =>
    rw [hnext] at h
    obtain ⟨h1, h2, h3, h4⟩ := h
    have hwait : wait k =
        ({ k with
            procs := k.procs.map (fun p =>
              if p.pid = cur then { p with state := .waiting } else p),
            running := some q.pid },
          some q.pid) := by
      simp only [wait, hrun, hnext]
    refine ⟨h1, h2, h3, h4, ?_, ?_⟩ <;> rw [hwait]
  | none =>
    rw [hnext] at h
    have hwait : wait k = (k, none) := by
      simp only [wait, hrun, hnext]
    exact ⟨h, hwait⟩

/-- Three-process scenario of the spec: P0 Waiting (it just yielded),
P1 and P2 Spawned, P0 current. -/
def sampleProc (pid : Nat) (st : ProcessState) : Process :=
  { pid := pid, parent_pid := 0, stack_start := 0, stack_end := 0,
    context := { pc := 0, sp := 0, sx := [] }, name := [], state := st }

/-- Three-process kernel with P0 running-as-current. -/
def sampleKernel : Kernel :=
  { heapStart := 8192, pageSt := pageInit 8,
    procs := [sampleProc 0 .waiting, sampleProc 1 .spawned, sampleProc 2 .spawned],
    pageCount := 1, running := some 0 }

/-- Witness for C3 on the three-process kernel with current pid 0. -/
theorem C3_round_robin_next_witness :
    match get_next_process sampleKernel 0 with
    | some q =>
        q ∈ sampleKernel.procs ∧ (q.state = .spawned ∨ q.state = .waiting) ∧ q.pid ≠ 0
        ∧ ((0 < q.pid ∧ ∀ r ∈ sampleKernel.procs,
              (r.state = .spawned ∨ r.state = .waiting) → 0 < r.pid → q.pid ≤ r.pid)
           ∨ ((∀ r ∈ sampleKernel.procs,
                (r.state = .spawned ∨ r.state = .waiting) → ¬ 0 < r.pid)
              ∧ ∀ r ∈ sampleKernel.procs, (r.state = .spawned ∨ r.state = .waiting) →
                  r.pid ≠ 0 → q.pid ≤ r.pid))
        ∧ (wait sampleKernel).2 = some q.pid
        ∧ (wait sampleKernel).1.running = some q.pid
    | none =>
        (∀ r ∈ sampleKernel.procs, r.pid ≠ 0 →
          ¬(r.state = .spawned ∨ r.state = .waiting))
        ∧ wait sampleKernel = (sampleKernel, none) :=
  C3_round_robin_next sampleKernel 0 (by rfl) (by decide) (by decide)

/-! ## Claim C4 -/

/-- C4: start_schedule(), called before any process is running (so every
table entry is still un-run: no entry is Running or Dead), selects the
first runnable (Spawned or Waiting) process in table order and switches
to it via the no-return dispatch; when no runnable process exists it
halts the hart. -/
theorem C4_start_schedule (k : Kernel)
    (hrun : k.running = none)
    (hpre : ∀ p ∈ k.procs, p.state ≠ .running ∧ p.state ≠ .dead) :
    match k.procs.find? runnableB with
    | some p => start_schedule k = ({ k with running := some p.pid }, .switched p.pid)
    | none => start_schedule k = (k, .halted) := by
  have hiter : procIter k = k.procs.filter (fun p => p.state != ProcessState.invalid) := rfl
  -- under the boot precondition, skipping Invalid entries is the same as
  -- searching for the first runnable entry
  have key : ∀ l : List Process, (∀ p ∈ l, p.state ≠ .running ∧ p.state ≠ .dead) →
      match l.find? runnableB with
      | some p => ∃ rest, l.filter (fun p => p.state != ProcessState.invalid) = p :: rest
      | none => l.filter (fun p => p.state != ProcessState.invalid) = [] := by
    intro l
    induction l with
    | nil =>
      intro _
      rfl
    | cons p rest ih =>
      intro hl
      obtain ⟨hnr, hnd⟩ := hl p (List.mem_cons_self _ _)
      have hrest := fun q hq => hl q (List.mem_cons_of_mem _ hq)
      cases hst : p.state with
      | invalid =>
        have hfind : (p :: rest).find? runnableB = rest.find? runnableB :=
          List.find?_cons_of_neg _ (by simp [runnableB, hst])
        have hfilt : (p :: rest).filter (fun p => p.state != ProcessState.invalid)
            = rest.filter (fun p => p.state != ProcessState.invalid) := by
          rw [List.filter_cons_of_neg]
          simp [hst]
        rw [hfind, hfilt]
        exact ih hrest
      | spawned =>
        have hfind : (p :: rest).find? runnableB = some p :=
          List.find?_cons_of_pos _ (by simp [runnableB, hst])
        have hfilt : (p :: rest).filter (fun p => p.state != ProcessState.invalid)
            = p :: rest.filter (fun p => p.state != ProcessState.invalid) := by
          rw [List.filter_cons_of_pos]
          simp [hst]
        rw [hfind]
        exact ⟨_, hfilt⟩
      | waiting =>
        have hfind : (p :: rest).find? runnableB = some p :=
          List.find?_cons_of_pos _ (by simp [runnableB, hst])
        have hfilt : (p :: rest).filter (fun p => p.state != ProcessState.invalid)
            = p :: rest.filter (fun p => p.state != ProcessState.invalid) := by
          rw [List.filter_cons_of_pos]
          simp [hst]
        rw [hfind]
        exact ⟨_, hfilt⟩
      | running => exact absurd hst hnr
      | dead => exact absurd hst hnd
  have hmain := key k.procs hpre
  cases hf : k.procs.find? runnableB with
  | some p =>
    rw [hf] at hmain
    obtain ⟨rest, hrest⟩ := hmain
    show start_schedule k = _
    unfold start_schedule
    rw [show procIter k = p :: rest from hrest]
  | none =>
    rw [hf] at hmain
    show start_schedule k = _
    unfold start_schedule
    rw [show procIter k = [] from hmain]

/-- Witness for C4 on a freshly spawned three-process kernel. -/
theorem C4_start_schedule_witness :
    match List.find? runnableB
        (Kernel.procs { sampleKernel with running := none }) with
    | some p => start_schedule { sampleKernel with running := none }
        = ({ { sampleKernel with running := none } with running := some p.pid },
            .switched p.pid)
    | none => start_schedule { sampleKernel with running := none }
        = ({ sampleKernel with running := none }, .halted) :=
  C4_start_schedule { sampleKernel with running := none } (by rfl) (by decide)

/-! ### Characterization of spawn -/

/-- Marking a run only sets TAKEN bits: a page free after `markRun` was
free before. -/
theorem markRun_taken_mono {P : List PageFlags} {f0 c j : Nat}
    (h : getTaken (markRun P f0 c) j = false) : getTaken P j = false := by
  unfold getTaken at h ⊢
  rw [markRun_get?] at h
  cases hpg : P.get? j with
  | none =>
    rw [hpg] at h
    exact h
  | some pg =>
    rw [hpg] at h
    simp only [Option.map_some', Option.getD_some] at h ⊢
    by_cases h1 : j = f0
    · rw [if_pos h1] at h
      exact absurd h (by decide)
    · rw [if_neg h1] at h
      by_cases h2 : f0 < j ∧ j < f0 + c
      · rw [if_pos h2] at h
        exact absurd h (by decide)
      · rw [if_neg h2] at h
        exact h

/-- Shared characterization of a successful `spawn`: the new pid is the
previous process count, the record is appended to the table with state
Spawned, parent 0, pc = entry point, sp = stack top, and its one-page
stack sits on a page that was free before the call. -/
theorem spawn_ok_spec {k : Kernel} {e : Nat} {n : List UInt8} {k' : Kernel} {pid : Nat}
    (h : spawn k e n = some (k', pid)) :
    pid = k.procs.length
    ∧ ∃ (p : Process) (f : Nat),
        k'.procs = k.procs ++ [p]
        ∧ p.pid = pid ∧ p.parent_pid = 0 ∧ p.state = .spawned
        ∧ p.name = n
        ∧ p.context.pc = e ∧ p.context.sp = p.stack_end
        ∧ p.stack_start = pageAddr k.heapStart f
        ∧ p.stack_end = p.stack_start + PAGE_SIZE
        ∧ getTaken k.pageSt.pages f = false
        ∧ k'.running = k.running ∧ k'.heapStart = k.heapStart := by
  unfold spawn at h
  by_cases hgrow : 0 < k.procs.length ∧ k.procs.length % PROCESS_COUNT_PER_PAGE = 0
  · rw [if_pos hgrow] at h
    cases halloc1 : alloc k.pageSt 1 with
    | error =>
      rw [halloc1] at h
      exact Option.noConfusion h
    | ok pst1 f1 =>
      rw [halloc1] at h
      simp only [] at h
      cases halloc2 : alloc pst1 1 with
      | error =>
        rw [halloc2] at h
        exact Option.noConfusion h
      | ok pst2 f =>
        rw [halloc2] at h
        obtain ⟨hk', hpid⟩ := Prod.mk.injEq _ _ _ _ ▸ Option.some.inj h
        obtain ⟨hrun2, hmark2, _⟩ := alloc_ok_spec (Nat.le_refl 1) halloc2
        obtain ⟨_, hmark1, hps1⟩ := alloc_ok_spec (Nat.le_refl 1) halloc1
        have hfree2 : getTaken pst1.pages f = false := by
          have := ((freeRunB_iff _ _ _).mp hrun2.2.1).2 f (Nat.le_refl f) (by omega)
          exact this
        have hfree : getTaken k.pageSt.pages f = false := by
          rw [hmark1] at hfree2
          exact markRun_taken_mono hfree2
        rw [← hk', ← hpid]
        exact ⟨rfl, _, f, rfl, rfl, rfl, rfl, rfl, rfl, rfl, rfl, rfl, hfree, rfl, rfl⟩
  · rw [if_neg hgrow] at h
    simp only [] at h
    cases halloc2 : alloc k.pageSt 1 with
    | error =>
      rw [halloc2] at h
      exact Option.noConfusion h
    | ok pst2 f =>
      rw [halloc2] at h
      obtain ⟨hk', hpid⟩ := Prod.mk.injEq _ _ _ _ ▸ Option.some.inj h
      obtain ⟨hrun2, hmark2, _⟩ := alloc_ok_spec (Nat.le_refl 1) halloc2
      have hfree : getTaken k.pageSt.pages f = false := by
        have := ((freeRunB_iff _ _ _).mp hrun2.2.1).2 f (Nat.le_refl f) (by omega)
        exact this
      rw [← hk', ← hpid]
      exact ⟨rfl, _, f, rfl, rfl, rfl, rfl, rfl, rfl, rfl, rfl, rfl, hfree, rfl, rfl⟩

/-! ## Claim C5

The source never assigns `ProcessState::Running` to any record (the
variant is declared under `#[allow(unused)]` and no statement writes it):
`start_schedule`, `wait` and `exit` track the current process only
through the `RUNNING_PROCESS` pointer, writing the states Waiting and
Dead but never Running.  The claim "exactly one entry is in state
Running" therefore fails in every reachable state; what holds is that
exactly one process is designated through `RUNNING_PROCESS` and that no
entry is ever in state Running. -/

/-- Kernel operations available while the system runs. -/
inductive KOp
  | kSpawn (entry : Nat) (name : List UInt8)
  | kWait
  | kExit

/-- One kernel step; `none` when the hart halts or a panic occurs. -/
def kstep (k : Kernel) : KOp → Option Kernel
  | .kSpawn e n => (spawn k e n).map Prod.fst
  | .kWait => some (wait k).1
  | .kExit =>
    match exit k with
    | some (k', .switched _) => some k'
    | some (_, .halted) => none
    | none => none

/-- Boot-time reachable kernels: process-manager init on a freshly
initialized page allocator, followed by spawns. -/
inductive BootReachable : Kernel → Prop
  | boot (heapStart len : Nat) (k0 : Kernel) :
      procInit heapStart (pageInit len) = some k0 → BootReachable k0
  | spawnStep (k : Kernel) (e : Nat) (n : List UInt8) (k' : Kernel) (pid : Nat) :
      BootReachable k → spawn k e n = some (k', pid) → BootReachable k'

/-- Kernels reachable after `start_schedule()` has dispatched a process,
while the hart has not halted. -/
inductive PostDispatch : Kernel → Prop
  | dispatch (k k' : Kernel) (pid : Nat) :
      BootReachable k → start_schedule k = (k', .switched pid) → PostDispatch k'
  | step (k : Kernel) (op : KOp) (k' : Kernel) :
      PostDispatch k → kstep k op = some k' → PostDispatch k'

/-- No boot-reachable table entry is in state Running. -/
theorem BootReachable.no_running {k : Kernel} (h : BootReachable k) :
    ∀ p ∈ k.procs, p.state ≠ .running := by
  induction h with
  | boot heapStart len k0 h0 =>
    unfold procInit at h0
    cases halloc : alloc (pageInit len) 1 with
    | ok pst' f =>
      rw [halloc] at h0
      have hk0 : k0.procs = [] := by
        rw [← Option.some.inj h0]
      rw [hk0]
      intro p hp
      exact absurd hp (List.not_mem_nil p)
    | error =>
      rw [halloc] at h0
      exact Option.noConfusion h0
  | spawnStep k e n k' pid hk hsp ih =>
    obtain ⟨_, p, f, hprocs, _, _, hstate, _⟩ := spawn_ok_spec hsp
    rw [hprocs]
    intro q hq
    rcases List.mem_append.mp hq with h | h
    · exact ih q h
    · rcases List.mem_cons.mp h with rfl | h
      · rw [hstate]
        intro hc
        exact ProcessState.noConfusion hc
      · exact absurd h (List.not_mem_nil q)

/-- Invariant of every post-dispatch state: a current process is
designated (`RUNNING_PROCESS` is set) and no table entry is in state
Running. -/
theorem PostDispatch.invariant {k : Kernel} (h : PostDispatch k) :
    k.running.isSome = true ∧ ∀ p ∈ k.procs, p.state ≠ .running := by
  induction h with
  | dispatch k k' pid hboot hstart =>
    unfold start_schedule at hstart
    cases hiter : procIter k with
    | nil =>
      rw [hiter] at hstart
      exact absurd (Prod.mk.injEq _ _ _ _ ▸ hstart).2 (by intro hc; exact Dispatch.noConfusion hc)
    | cons p rest =>
      rw [hiter] at hstart
      have hk' : k' = { k with running := some p.pid } :=
        ((Prod.mk.injEq _ _ _ _ ▸ hstart).1).symm
      rw [hk']
      exact ⟨rfl, hboot.no_running⟩
  | step k op k' hpost hstep ih =>
    obtain ⟨hrun, hnor⟩ := ih
    cases op with
    | kSpawn e n =>
      simp only [kstep] at hstep
      cases hsp : spawn k e n with
      | none =>
        rw [hsp] at hstep
        exact Option.noConfusion hstep
      | some pr =>
        rw [hsp] at hstep
        have hk' : k' = pr.1 := (Option.some.inj hstep).symm
        have hsp' : spawn k e n = some (pr.1, pr.2) := by rw [hsp]
        obtain ⟨_, p, f, hprocs, _, _, hstate, _, _, _, _, _, _, hrunning, _⟩ :=
          spawn_ok_spec hsp'
        subst hk'
        refine ⟨by rw [hrunning]; exact hrun, ?_⟩
        rw [hprocs]
        intro q hq
        rcases List.mem_append.mp hq with h | h
        · exact hnor q h
        · rcases List.mem_cons.mp h with rfl | h
          · rw [hstate]
            intro hc
            exact ProcessState.noConfusion hc
          · exact absurd h (List.not_mem_nil q)
    | kWait =>
      simp only [kstep] at hstep
      have hk' : k' = (wait k).1 := (Option.some.inj hstep).symm
      subst hk'
      cases hr : k.running with
      | none =>
        have hw : wait k = (k, none) := by
          simp only [wait, hr]
        rw [hw]
        exact ⟨hrun, hnor⟩
      | some cur =>
        cases hn : get_next_process k cur with
        | none =>
          have hw : wait k = (k, none) := by
            simp only [wait, hr, hn]
          rw [hw]
          exact ⟨hrun, hnor⟩
        | some next =>
          have hw : wait k =
              ({ k with
                  procs := k.procs.map (fun p =>
                    if p.pid = cur then { p with state := .waiting } else p),
                  running := some next.pid }, some next.pid) := by
            simp only [wait, hr, hn]
          rw [hw]
          refine ⟨rfl, ?_⟩
          intro q hq
          obtain ⟨q0, hq0, hq0e⟩ := List.mem_map.mp hq
          by_cases hc : q0.pid = cur
          · rw [if_pos hc] at hq0e
            rw [← hq0e]
            intro hcontra
            exact ProcessState.noConfusion hcontra
          · rw [if_neg hc] at hq0e
            rw [← hq0e]
            exact hnor q0 hq0
    | kExit =>
      simp only [kstep] at hstep
      cases hr : k.running with
      | none =>
        have hexeq : exit k = some (k, .halted) := by
          simp only [exit, hr]
        rw [hexeq] at hstep
        exact Option.noConfusion hstep
      | some cur =>
        cases hfind : k.procs.find? (fun p => p.pid == cur) with
        | none =>
          have hexeq : exit k = none := by
            simp only [exit, hr, hfind]
          rw [hexeq] at hstep
          exact Option.noConfusion hstep
        | some c =>
          cases hde : dealloc k.heapStart k.pageSt c.stack_start with
          | ok pst' =>
            cases hn : get_next_process { k with
                pageSt := pst',
                procs := k.procs.map (fun p =>
                  if p.pid = cur then
                    { p with state := .dead,
                             context := { p.context with pc := 0, sp := 0 } }
                  else p),
                running := some cur } cur with
            | some next =>
              have hexeq : exit k = some ({ k with
                  pageSt := pst',
                  procs := k.procs.map (fun p =>
                    if p.pid = cur then
                      { p with state := .dead,
                               context := { p.context with pc := 0, sp := 0 } }
                    else p),
                  running := some next.pid }, .switched next.pid) := by
                simp only [exit, hr, hfind, hde, hn]
              rw [hexeq] at hstep
              have hk' : k' = { k with
                  pageSt := pst',
                  procs := k.procs.map (fun p =>
                    if p.pid = cur then
                      { p with state := .dead,
                               context := { p.context with pc := 0, sp := 0 } }
                    else p),
                  running := some next.pid } := (Option.some.inj hstep).symm
              subst hk'
              refine ⟨rfl, ?_⟩
              intro q hq
              obtain ⟨q0, hq0, hq0e⟩ := List.mem_map.mp hq
              by_cases hc : q0.pid = cur
              · rw [if_pos hc] at hq0e
                rw [← hq0e]
                intro hcontra
                exact ProcessState.noConfusion hcontra
              · rw [if_neg hc] at hq0e
                rw [← hq0e]
                exact hnor q0 hq0
            | none =>
              have hexeq : exit k = some ({ k with
                  pageSt := pst',
                  procs := k.procs.map (fun p =>
                    if p.pid = cur then
                      { p with state := .dead,
                               context := { p.context with pc := 0, sp := 0 } }
                    else p) }, .halted) := by
                simp only [exit, hr, hfind, hde, hn]
              rw [hexeq] at hstep
              exact Option.noConfusion hstep
          | invalidPointer =>
            have hexeq : exit k = none := by
              simp only [exit, hr, hfind, hde]
            rw [hexeq] at hstep
            exact Option.noConfusion hstep
          | outOfRangePointer =>
            have hexeq : exit k = none := by
              simp only [exit, hr, hfind, hde]
            rw [hexeq] at hstep
            exact Option.noConfusion hstep
          | panic =>
            have hexeq : exit k = none := by
              simp only [exit, hr, hfind, hde]
            rw [hexeq] at hstep
            exact Option.noConfusion hstep

/-- Page metadata shared by the concrete C5 states: metadata page, chain
page, stack page, five free pages. -/
def c5pages (stackTaken : Bool) : PageState :=
  { pages := [PageFlags.takenMetadata, PageFlags.takenFirst,
      (if stackTaken then PageFlags.takenFirst else PageFlags.empty),
      PageFlags.empty, PageFlags.empty, PageFlags.empty, PageFlags.empty,
      PageFlags.empty],
    pageStart := 1 }

/-- Concrete kernel right after `procInit` on an 8-page heap. -/
def c5k0 : Kernel :=
  { heapStart := 8192, pageSt := c5pages false, procs := [],
    pageCount := 1, running := none }

/-- Concrete single process spawned at entry point 100. -/
def c5proc : Process :=
  { pid := 0, parent_pid := 0, stack_start := 16384, stack_end := 20480,
    context := { pc := 100, sp := 20480, sx := List.replicate 12 0 },
    name := [], state := .spawned }

/-- Concrete kernel after the spawn. -/
def c5k1 : Kernel :=
  { heapStart := 8192, pageSt := c5pages true, procs := [c5proc],
    pageCount := 1, running := none }

/-- Concrete kernel after the dispatch of `start_schedule`. -/
def c5k2 : Kernel :=
  { c5k1 with running := some 0 }

/-- The concrete post-dispatch state is reachable. -/
theorem c5k2_reachable : PostDispatch c5k2 :=
  PostDispatch.dispatch c5k1 c5k2 0
    (BootReachable.spawnStep c5k0 100 [] c5k1 0
      (BootReachable.boot 8192 8 c5k0 (by decide))
      (by decide))
    (by decide)

/-- C5 counterexample: in the concrete reachable post-dispatch state
`c5k2` (init on an 8-page heap, one spawn, then the dispatch of
start_schedule), the number of table entries in state Running is 0, not
1: the source never assigns the Running state and tracks the current
process only through the RUNNING_PROCESS pointer. -/
theorem C5_counterexample :
    PostDispatch c5k2
    ∧ ¬ ((c5k2.procs.filter (fun p => p.state == ProcessState.running)).length = 1) :=
  ⟨c5k2_reachable, by decide⟩

/-- C5 (amended): in every state reachable after start_schedule() has
dispatched a process, while the hart has not halted, exactly one process
is designated as the current one — through the RUNNING_PROCESS pointer,
which is always set — and no table entry is in state Running (the code
never assigns the Running state). -/
theorem C5_running_amended (k : Kernel) (h : PostDispatch k) :
    k.running.isSome = true
    ∧ (k.procs.filter (fun p => p.state == ProcessState.running)).length = 0 := by
  obtain ⟨h1, h2⟩ := h.invariant
  refine ⟨h1, ?_⟩
  rw [List.length_eq_zero, List.filter_eq_nil]
  intro p hp
  simp only [beq_iff_eq]
  exact h2 p hp

/-- Witness for the amended C5 at the concrete reachable state. -/
theorem C5_running_amended_witness :
    c5k2.running.isSome = true
    ∧ (c5k2.procs.filter (fun p => p.state == ProcessState.running)).length = 0 :=
  C5_running_amended c5k2 c5k2_reachable

/-! ## Claims C6 and C10 -/

/-- C6: every successful spawn(entry, name) returns a process id equal to
the number of previously spawned processes — so ids are unique, assigned
monotonically from 0 and never reused — appends a record in state Spawned
whose saved program counter is the entry point and whose saved stack
pointer is the top (highest address) of a freshly allocated one-page
stack. -/
theorem C6_spawn (k : Kernel) (e : Nat) (n : List UInt8) (k' : Kernel) (pid : Nat)
    (hpids : ∀ q ∈ k.procs, q.pid < k.procs.length)
    (h : spawn k e n = some (k', pid)) :
    pid = k.procs.length
    ∧ (∀ q ∈ k.procs, q.pid < pid)
    ∧ ∃ (p : Process) (f : Nat),
        k'.procs = k.procs ++ [p]
        ∧ p.pid = pid ∧ p.state = .spawned
        ∧ p.context.pc = e
        ∧ p.context.sp = p.stack_end
        ∧ p.stack_end = p.stack_start + PAGE_SIZE
        ∧ p.stack_start = pageAddr k.heapStart f
        ∧ getTaken k.pageSt.pages f = false := by
  obtain ⟨hpid, p, f, h1, h2, _, h4, _, h6, h7, h8, h9, h10, _, _⟩ := spawn_ok_spec h
  refine ⟨hpid, ?_, p, f, h1, h2, h4, h6, h7, h9, h8, h10⟩
  intro q hq
  rw [hpid]
  exact hpids q hq

/-- Witness for C6: the single spawn of the concrete boot trace. -/
theorem C6_spawn_witness :
    0 = c5k0.procs.length
    ∧ (∀ q ∈ c5k0.procs, q.pid < 0)
    ∧ ∃ (p : Process) (f : Nat),
        c5k1.procs = c5k0.procs ++ [p]
        ∧ p.pid = 0 ∧ p.state = .spawned
        ∧ p.context.pc = 100
        ∧ p.context.sp = p.stack_end
        ∧ p.stack_end = p.stack_start + PAGE_SIZE
        ∧ p.stack_start = pageAddr c5k0.heapStart f
        ∧ getTaken c5k0.pageSt.pages f = false :=
  C6_spawn c5k0 100 [] c5k1 0 (by decide) (by decide)

/-- C10: for every call to spawn, the parent-id field of the newly
created record is the constant 0, whatever `RUNNING_PROCESS` designates
(`k.running` is arbitrary here and `spawn` never reads it): the id of the
spawning process is never recorded as the parent. -/
theorem C10_parent_pid_zero (k : Kernel) (e : Nat) (n : List UInt8)
    (k' : Kernel) (pid : Nat)
    (h : spawn k e n = some (k', pid)) :
    ∃ p : Process, k'.procs = k.procs ++ [p] ∧ p.parent_pid = 0 := by
  obtain ⟨_, p, f, h1, _, h3, _⟩ := spawn_ok_spec h
  exact ⟨p, h1, h3⟩

/-- Witness for C10: the concrete spawn performed while no process (and
in particular no nonzero-pid process) is running. -/
theorem C10_parent_pid_zero_witness :
    ∃ p : Process, c5k1.procs = c5k0.procs ++ [p] ∧ p.parent_pid = 0 :=
  C10_parent_pid_zero c5k0 100 [] c5k1 0 (by decide)

/-! ## Claim C7 -/

/-- The dealloc surgery sets the target page itself to EMPTY. -/
theorem deallocPagesFn_get?_self (st : PageState) (idx : Nat)
    (hidx : idx < st.pages.length) :
    (deallocPagesFn st idx).pages.get? idx = some PageFlags.empty := by
  show (st.pages.take idx ++ (PageFlags.empty :: clearTail (st.pages.drop (idx + 1)))).get? idx
      = some PageFlags.empty
  have htake : (st.pages.take idx).length = idx := by
    rw [List.length_take]
    omega
  rw [List.get?_append_right (by omega), htake, Nat.sub_self]
  rfl

/-- A free usable page makes `alloc(1)` succeed. -/
theorem alloc_one_of_free (st : PageState) (idx : Nat)
    (hps : st.pageStart ≤ idx) (hfree : getTaken st.pages idx = false) :
    ∃ st2 f, alloc st 1 = .ok st2 f := by
  have hmain := allocLoop_correct 1 (by omega) st.pages st.pageStart
    (st.pages.drop st.pageStart) st.pageStart 0 0 rfl (Nat.le_refl _)
    (Or.inl ⟨rfl, fun f hf hfi => absurd hfi (by omega)⟩)
  unfold alloc
  cases hloop : allocLoop 1 (st.pages.drop st.pageStart) st.pageStart 0 0 with
  | some f => exact ⟨_, f, rfl⟩
  | none =>
    exfalso
    rw [hloop] at hmain
    have hlen := getTaken_false_lt hfree
    have hone : freeRunB st.pages idx 1 = true := by
      show (!(getTaken st.pages idx) && freeRunB st.pages (idx + 1) 0) = true
      rw [hfree]
      show (true && decide (idx + 1 ≤ st.pages.length)) = true
      simp only [Bool.true_and, decide_eq_true_eq]
      omega
    rw [hmain idx hps] at hone
    exact Bool.noConfusion hone

/-- C7: exit() never returns to its caller — its outcome is a no-return
context switch or a hart halt.  It marks the current process Dead, frees
its stack page — which a subsequent alloc(1) can obtain again — and
switches to the runnable process chosen by the round-robin scan starting
just after the exiting process's id (smallest runnable id above it, else
smallest runnable id overall), or halts the hart when no runnable process
remains. -/
theorem C7_exit (k : Kernel) (cur : Nat) (c : Process)
    (hrun : k.running = some cur)
    (hfind : k.procs.find? (fun p => p.pid == cur) = some c)
    (hsort : List.Pairwise (fun a b => a.pid < b.pid) k.procs)
    (hlt : pageIndexOf k.heapStart c.stack_start < k.pageSt.pages.length)
    (hsp : k.pageSt.pages.get? (pageIndexOf k.heapStart c.stack_start)
        = some PageFlags.takenFirst)
    (hps : k.pageSt.pageStart ≤ pageIndexOf k.heapStart c.stack_start) :
    ∃ (k1 : Kernel) (out : Dispatch),
      exit k = some (k1, out)
      ∧ (∀ p ∈ k1.procs, p.pid = cur → p.state = .dead)
      ∧ k1.pageSt.pages.get? (pageIndexOf k.heapStart c.stack_start)
          = some PageFlags.empty
      ∧ (∃ st2 f, alloc k1.pageSt 1 = .ok st2 f)
      ∧ (match get_next_process k1 cur with
         | some q =>
             out = .switched q.pid ∧ k1.running = some q.pid
             ∧ q ∈ k1.procs ∧ (q.state = .spawned ∨ q.state = .waiting) ∧ q.pid ≠ cur
             ∧ ((cur < q.pid ∧ ∀ r ∈ k1.procs,
                   (r.state = .spawned ∨ r.state = .waiting) → cur < r.pid →
                     q.pid ≤ r.pid)
                ∨ ((∀ r ∈ k1.procs, (r.state = .spawned ∨ r.state = .waiting) →
                      ¬ cur < r.pid)
                   ∧ ∀ r ∈ k1.procs, (r.state = .spawned ∨ r.state = .waiting) →
                       r.pid ≠ cur → q.pid ≤ r.pid))
         | none => out = .halted) := by
  have hde : dealloc k.heapStart k.pageSt c.stack_start
      = .ok (deallocPagesFn k.pageSt (pageIndexOf k.heapStart c.stack_start)) := by
    rw [dealloc_eq, if_pos hlt, hsp]
    rw [if_pos (by decide)]
  have hclen : (deallocPagesFn k.pageSt (pageIndexOf k.heapStart c.stack_start)).pages.length
      = k.pageSt.pages.length :=
    deallocPages_length k.pageSt.pages _ hlt
  have hfreed : (deallocPagesFn k.pageSt (pageIndexOf k.heapStart c.stack_start)).pages.get?
      (pageIndexOf k.heapStart c.stack_start) = some PageFlags.empty :=
    deallocPagesFn_get?_self k.pageSt _ hlt
  have halloc1 : ∃ st2 f,
      alloc (deallocPagesFn k.pageSt (pageIndexOf k.heapStart c.stack_start)) 1
        = .ok st2 f := by
    refine alloc_one_of_free _ (pageIndexOf k.heapStart c.stack_start) hps ?_
    rw [getTaken_eq_of_get? hfreed]
    rfl
  -- properties of the marked process table
  have hcpid : c.pid = cur := by
    have h := List.find?_some hfind
    exact beq_iff_eq.mp h
  have hcmem : c ∈ k.procs := List.mem_of_find?_eq_some hfind
  have hmarkdead : ∀ p ∈ k.procs.map (fun p =>
      if p.pid = cur then
        { p with state := ProcessState.dead,
                 context := { p.context with pc := 0, sp := 0 } }
      else p), p.pid = cur → p.state = .dead := by
    intro p hp hpid
    obtain ⟨p0, hp0, hp0e⟩ := List.mem_map.mp hp
    by_cases hc0 : p0.pid = cur
    · rw [if_pos hc0] at hp0e
      rw [← hp0e]
    · rw [if_neg hc0] at hp0e
      rw [← hp0e] at hpid
      exact absurd hpid hc0
  have hsort1 : List.Pairwise (fun a b => a.pid < b.pid) (k.procs.map (fun p =>
      if p.pid = cur then
        { p with state := ProcessState.dead,
                 context := { p.context with pc := 0, sp := 0 } }
      else p)) := by
    refine hsort.map _ ?_
    intro a b hab
    have ha : (if a.pid = cur then
        { a with state := ProcessState.dead,
                 context := { a.context with pc := 0, sp := 0 } }
      else a).pid = a.pid := by
      by_cases h0 : a.pid = cur
      · rw [if_pos h0]
      · rw [if_neg h0]
    have hb : (if b.pid = cur then
        { b with state := ProcessState.dead,
                 context := { b.context with pc := 0, sp := 0 } }
      else b).pid = b.pid := by
      by_cases h0 : b.pid = cur
      · rw [if_pos h0]
      · rw [if_neg h0]
    rw [ha, hb]
    exact hab
  cases hn : get_next_process { k with
      pageSt := deallocPagesFn k.pageSt (pageIndexOf k.heapStart c.stack_start),
      procs := k.procs.map (fun p =>
        if p.pid = cur then
          { p with state := ProcessState.dead,
                   context := { p.context with pc := 0, sp := 0 } }
        else p),
      running := some cur } cur with
  | some q =>
    have hexeq : exit k = some ({ k with
        pageSt := deallocPagesFn k.pageSt (pageIndexOf k.heapStart c.stack_start),
        procs := k.procs.map (fun p =>
          if p.pid = cur then
            { p with state := ProcessState.dead,
                     context := { p.context with pc := 0, sp := 0 } }
          else p),
        running := some q.pid }, .switched q.pid) := by
      simp only [exit, hrun, hfind, hde, hn]
    refine ⟨_, _, hexeq, hmarkdead, hfreed, halloc1, ?_⟩
    have hspec := get_next_spec { k with
        pageSt := deallocPagesFn k.pageSt (pageIndexOf k.heapStart c.stack_start),
        procs := k.procs.map (fun p =>
          if p.pid = cur then
            { p with state := ProcessState.dead,
                     context := { p.context with pc := 0, sp := 0 } }
          else p),
        running := some q.pid } cur hsort1 ?hcur
    case hcur =>
      have hcw := List.mem_map_of_mem (fun p => if p.pid = cur then { p with state := ProcessState.dead, context := { p.context with pc := 0, sp := 0 } } else p) hcmem
      have hceq : (if c.pid = cur then { c with state := ProcessState.dead, context := { c.context with pc := 0, sp := 0 } } else c) = { c with state := ProcessState.dead, context := { c.context with pc := 0, sp := 0 } } := by
        rw [if_pos hcpid]
      simp only [hceq] at hcw
      exact ⟨_, hcw, hcpid, fun hcontra => ProcessState.noConfusion hcontra⟩
    rw [show get_next_process { k with
        pageSt := deallocPagesFn k.pageSt (pageIndexOf k.heapStart c.stack_start),
        procs := k.procs.map (fun p =>
          if p.pid = cur then
            { p with state := ProcessState.dead,
                     context := { p.context with pc := 0, sp := 0 } }
          else p),
        running := some q.pid } cur = some q from hn] at hspec ⊢
    obtain ⟨hs1, hs2, hs3, hs4⟩ := hspec
    exact ⟨rfl, rfl, hs1, hs2, hs3, hs4⟩
  | none =>
    have hexeq : exit k = some ({ k with
        pageSt := deallocPagesFn k.pageSt (pageIndexOf k.heapStart c.stack_start),
        procs := k.procs.map (fun p =>
          if p.pid = cur then
            { p with state := ProcessState.dead,
                     context := { p.context with pc := 0, sp := 0 } }
          else p) }, .halted) := by
      simp only [exit, hrun, hfind, hde, hn]
    refine ⟨_, _, hexeq, hmarkdead, hfreed, halloc1, ?_⟩
    rw [show get_next_process { k with
        pageSt := deallocPagesFn k.pageSt (pageIndexOf k.heapStart c.stack_start),
        procs := k.procs.map (fun p =>
          if p.pid = cur then
            { p with state := ProcessState.dead,
                     context := { p.context with pc := 0, sp := 0 } }
          else p) } cur = none from hn]

/-- Witness for C7: the single process of the concrete reachable state
exits; its stack page is freed and, with no runnable process left, the
hart halts. -/
theorem C7_exit_witness :
    ∃ (k1 : Kernel) (out : Dispatch),
      exit c5k2 = some (k1, out)
      ∧ (∀ p ∈ k1.procs, p.pid = 0 → p.state = .dead)
      ∧ k1.pageSt.pages.get? (pageIndexOf c5k2.heapStart c5proc.stack_start)
          = some PageFlags.empty
      ∧ (∃ st2 f, alloc k1.pageSt 1 = .ok st2 f)
      ∧ (match get_next_process k1 0 with
         | some q =>
             out = .switched q.pid ∧ k1.running = some q.pid
             ∧ q ∈ k1.procs ∧ (q.state = .spawned ∨ q.state = .waiting) ∧ q.pid ≠ 0
             ∧ ((0 < q.pid ∧ ∀ r ∈ k1.procs,
                   (r.state = .spawned ∨ r.state = .waiting) → 0 < r.pid →
                     q.pid ≤ r.pid)
                ∨ ((∀ r ∈ k1.procs, (r.state = .spawned ∨ r.state = .waiting) →
                      ¬ 0 < r.pid)
                   ∧ ∀ r ∈ k1.procs, (r.state = .spawned ∨ r.state = .waiting) →
                       r.pid ≠ 0 → q.pid ≤ r.pid))
         | none => out = .halted) :=
  C7_exit c5k2 0 c5proc (by rfl) (by decide) (by decide) (by decide) (by decide)
    (by decide)

/-! ## Claim C9: spinlock embedding (src/sync.rs) -/

/-- MutexState::Released as a u32 word value. -/
def STATE_RELEASED : Nat := 0

/-- MutexState::Acquired as a u32 word value. -/
def STATE_ACQUIRED : Nat := 1

/-- Embedding of `Mutex::try_lock`: the single `amoswap.w.aq` instruction
atomically writes STATE_ACQUIRED into the state word and yields the
previous value; a guard is returned iff that previous value matched
STATE_RELEASED.  Result: (new state word, guard returned). -/
def try_lock (state : Nat) : Nat × Bool :=
  (STATE_ACQUIRED, state == STATE_RELEASED)

/-- Embedding of `Mutex::unlock`, invoked by `MutexGuard::drop` — hence
on every exit path of the guard: the single `amoswap.w.rl` instruction
writes zero (= STATE_RELEASED) into the state word. -/
def unlock (_state : Nat) : Nat := STATE_RELEASED

/-- C9: for every state of the spinlock word, try_lock() performs a
single atomic exchange that writes Acquired, and returns a guard if and
only if the previous state was Released; releasing the guard (its drop
handler, run on every exit path) performs a single atomic write of
Released to the state word. -/
theorem C9_spinlock (s : Nat) :
    (try_lock s).1 = STATE_ACQUIRED
    ∧ ((try_lock s).2 = true ↔ s = STATE_RELEASED)
    ∧ unlock s = STATE_RELEASED := by
  refine ⟨rfl, ?_, rfl⟩
  show (s == STATE_RELEASED) = true ↔ s = STATE_RELEASED
  exact beq_iff_eq

end Aves
